import Mathlib

/-!
# Verification of the nanostores-style router (`src/index.ts`)

Shallow embedding of the router's core: template compilation
(`createRouter`, lines 112-134), path matching and de-duplication
(`parse`, lines 151-165), navigation (`open`, lines 135-147) and reverse
path generation (`getPagePath`, lines 239-262).

Modelling conventions:
* Strings are Lean `String`s (lists of characters); the generated
  `RegExp` is represented by the token list the compiler's three
  string rewrites produce (`RTok`), with its backtracking match
  semantics spelled out in `matchToks`.  The escaping step
  `replace(/[\s!#$()+,.:<=?[\\\]^{|}]/g, s!\x7b\x7d)` turns every escaped
  character into a literal; of the remaining characters only `*` is a
  regex metacharacter, so the token model is faithful for templates
  that do not contain `*` (all general theorems below stay inside that
  fragment, mirrored by the well-formedness predicates).
* The `i` flag of the generated pattern is modelled by ASCII
  case-insensitive character comparison (`ciEq`).
* JS exceptions (`decodeURIComponent` throwing `URIError`, the
  development-mode `throw` in `getPagePath`) are modelled with
  `Option`/`Except`; `process.env.NODE_ENV !== 'production'` is the
  boolean `dev` parameter.
* The mutable closed-over `prev` memo and the atom value are threaded
  explicitly (`RouterSt`); `history.pushState`/`replaceState` are
  recorded in a list of `(redirect, path)` entries.
-/

namespace RouterModel

/-- Decidable equality for `Except` results, used to evaluate the model
on concrete inputs. -/
instance {ε α : Type} [DecidableEq ε] [DecidableEq α] : DecidableEq (Except ε α) := fun a b =>
  match a, b with
  | .ok x, .ok y => if h : x = y then .isTrue (by rw [h]) else .isFalse (by simp [h])
  | .error x, .error y => if h : x = y then .isTrue (by rw [h]) else .isFalse (by simp [h])
  | .ok _, .error _ => .isFalse (by simp)
  | .error _, .ok _ => .isFalse (by simp)

/-- Case-insensitive character comparison: the compiled pattern carries the
`i` flag; ASCII canonicalisation (`toLower`) models it. -/
def ciEq (a b : Char) : Bool := a.toLower == b.toLower

/-- The JS `\w` character class used by the `/:\w+` parameter markers. -/
def isWordChar (c : Char) : Bool := c.isAlpha || c.isDigit || c == '_'

/-- Value of a hexadecimal digit, `none` for a non-hex character. -/
def hexVal (c : Char) : Option Nat :=
  if c.isDigit then some (c.toNat - 48)
  else if 65 ≤ c.toNat ∧ c.toNat ≤ 70 then some (c.toNat - 55)
  else if 97 ≤ c.toNat ∧ c.toNat ≤ 102 then some (c.toNat - 87)
  else none

/-- A `%XX` continuation byte of a multi-byte UTF-8 sequence: must be in
`0x80..0xBF`; yields its 6 payload bits. -/
def contByte (h1 h2 : Char) : Option Nat := do
  let a ← hexVal h1
  let b ← hexVal h2
  let v := a * 16 + b
  if 128 ≤ v ∧ v < 192 then some (v % 64) else none

/-- One pass of ECMA-262 `Decode` (the body of `decodeURIComponent`):
percent-escapes are assembled into UTF-8 byte sequences and decoded
strictly (no overlongs, no surrogates, max `U+10FFFF`); any malformed
escape is a `URIError`, modelled as `none`.  The fuel argument is the
remaining input length; every step consumes at least one character. -/
def decodeScan : Nat → List Char → Option (List Char)
  | _, [] => some []
  | 0, _ :: _ => none
  | fuel + 1, '%' :: h1 :: h2 :: rest => do
    let a ← hexVal h1
    let b ← hexVal h2
    let v := a * 16 + b
    if v < 128 then
      let tail ← decodeScan fuel rest
      some (Char.ofNat v :: tail)
    else if v < 192 then none
    else if v < 224 then
      match rest with
      | '%' :: g1 :: g2 :: rest2 => do
        let c1 ← contByte g1 g2
        let cp := (v % 32) * 64 + c1
        if cp < 128 then none
        else
          let tail ← decodeScan fuel rest2
          some (Char.ofNat cp :: tail)
      | _ => none
    else if v < 240 then
      match rest with
      | '%' :: g1 :: g2 :: '%' :: g3 :: g4 :: rest2 => do
        let c1 ← contByte g1 g2
        let c2 ← contByte g3 g4
        let cp := (v % 16) * 4096 + c1 * 64 + c2
        if cp < 2048 ∨ (55296 ≤ cp ∧ cp < 57344) then none
        else
          let tail ← decodeScan fuel rest2
          some (Char.ofNat cp :: tail)
      | _ => none
    else if v < 248 then
      match rest with
      | '%' :: g1 :: g2 :: '%' :: g3 :: g4 :: '%' :: g5 :: g6 :: rest2 => do
        let c1 ← contByte g1 g2
        let c2 ← contByte g3 g4
        let c3 ← contByte g5 g6
        let cp := (v % 8) * 262144 + c1 * 4096 + c2 * 64 + c3
        if cp < 65536 ∨ 1114111 < cp then none
        else
          let tail ← decodeScan fuel rest2
          some (Char.ofNat cp :: tail)
      | _ => none
    else none
  | _ + 1, '%' :: _ => none
  | fuel + 1, c :: rest => do
    let tail ← decodeScan fuel rest
    some (c :: tail)

/-- `decodeURIComponent`, with `none` standing for a thrown `URIError`. -/
def decodeURIComponentM (s : String) : Option String :=
  (decodeScan s.data.length s.data).map String.mk

/-- Characters `encodeURIComponent` leaves unescaped. -/
def uriUnreserved (c : Char) : Bool :=
  c.isAlpha || c.isDigit || c == '-' || c == '_' || c == '.' || c == '!' ||
    c == '~' || c == '*' || c == Char.ofNat 39 || c == '(' || c == ')'

/-- Upper-case hex digit of a value below 16. -/
def hexDigit (n : Nat) : Char :=
  if n < 10 then Char.ofNat (48 + n) else Char.ofNat (55 + n)

/-- UTF-8 bytes of one code point. -/
def utf8Bytes (c : Char) : List Nat :=
  let n := c.toNat
  if n < 128 then [n]
  else if n < 2048 then [192 + n / 64, 128 + n % 64]
  else if n < 65536 then [224 + n / 4096, 128 + (n / 64) % 64, 128 + n % 64]
  else [240 + n / 262144, 128 + (n / 4096) % 64, 128 + (n / 64) % 64, 128 + n % 64]

/-- `encodeURIComponent` on a single character. -/
def encChar (c : Char) : List Char :=
  if uriUnreserved c then [c]
  else (utf8Bytes c).foldr (fun b acc => '%' :: hexDigit (b / 16) :: hexDigit (b % 16) :: acc) []

/-- `encodeURIComponent`. -/
def encodeURIComponent (s : String) : String :=
  String.mk (s.data.foldr (fun c acc => encChar c ++ acc) [])

/-! ## Template compilation

`createRouter` turns a template string into
`RegExp('^' + pattern + '$', 'i')` by escaping regex metacharacters and
rewriting `/\:word\?` to `/?([^/]*)` and `/\:word` to `/([^/]+)`, and
collects the parameter names with `value.match(/\/:\w+/g)`.  Both the
pattern and the name list are produced here by one scan that recognises
the `/:word` / `/:word?` markers (the regex rewrites are leftmost,
non-overlapping, and a marker is exactly a `/` followed by `:` and a
maximal nonempty `\w` run, optionally closed by `?`). -/

/-- A token of the compiled pattern: a literal character (matched
case-insensitively), `/([^/]+)` or `/?([^/]*)`. -/
inductive RTok where
  | lit (c : Char)
  | reqGroup
  | optGroup
deriving DecidableEq

/-- Scanner state: at top level, just after an unconsumed `/`, or inside
the `\w+` run of a marker (accumulator reversed). -/
inductive ScanSt where
  | top
  | slash
  | name (acc : List Char)

/-- The marker name collected so far. -/
def nameStr (acc : List Char) : String := String.mk acc.reverse

/-- One-pass compilation of a normalized template into pattern tokens and
the ordered parameter-name list. -/
def scanGo : ScanSt → List Char → List RTok × List String
  | .top, [] => ([], [])
  | .top, c :: cs =>
    if c == '/' then scanGo .slash cs
    else
      let r := scanGo .top cs
      (.lit c :: r.1, r.2)
  | .slash, [] => ([.lit '/'], [])
  | .slash, c :: cs =>
    if c == ':' then
      match cs with
      | [] => ([.lit '/', .lit ':'], [])
      | d :: ds =>
        if isWordChar d then scanGo (.name [d]) ds
        else if d == '/' then
          let r := scanGo .slash ds
          (.lit '/' :: .lit ':' :: r.1, r.2)
        else
          let r := scanGo .top ds
          (.lit '/' :: .lit ':' :: .lit d :: r.1, r.2)
    else if c == '/' then
      let r := scanGo .slash cs
      (.lit '/' :: r.1, r.2)
    else
      let r := scanGo .top cs
      (.lit '/' :: .lit c :: r.1, r.2)
  | .name acc, [] => ([.reqGroup], [nameStr acc])
  | .name acc, c :: cs =>
    if isWordChar c then scanGo (.name (c :: acc)) cs
    else if c == '?' then
      let r := scanGo .top cs
      (.optGroup :: r.1, nameStr acc :: r.2)
    else if c == '/' then
      let r := scanGo .slash cs
      (.reqGroup :: r.1, nameStr acc :: r.2)
    else
      let r := scanGo .top cs
      (.reqGroup :: .lit c :: r.1, nameStr acc :: r.2)

/-- `value.replace(/\/$/g, s!) || s!/`: strip one trailing slash, with the
empty result replaced by the root path. -/
def stripTrailing (s : List Char) : List Char :=
  if s.getLast? == some '/' then s.dropLast else s

/-- Template normalization performed by `createRouter`. -/
def normTemplate (t : String) : String :=
  let v := stripTrailing t.data
  String.mk (if v.isEmpty then ['/'] else v)

/-! ## Path normalization in `parse` -/

/-- `path.replace(/\/($|\?)/, s!)`: delete the first `/` that is followed
by the end of the string or by `?` (the regex is not global). -/
def goNorm : List Char → List Char
  | [] => []
  | ['/'] => []
  | '/' :: '?' :: cs => '?' :: cs
  | c :: cs => c :: goNorm cs

/-- The normalization `parse` applies before matching: without the
`search` option everything from the first `?` is cut, then the
trailing-slash rewrite runs, and an empty result becomes `/`. -/
def normalizePath (search : Bool) (path : String) : String :=
  let p := if search then path.data else path.data.takeWhile (fun c => c != '?')
  let q := goNorm p
  String.mk (if q.isEmpty then ['/'] else q)

/-! ## Pattern matching

`matchToks` is the anchored, backtracking match of the compiled token
list, exactly as the JS regex engine runs `^...$`: groups are greedy
(`[^/]+` / `[^/]*` try the longest capture first and backtrack one
character at a time), `/?` tries to consume the slash first, and
captures are collected left to right.  For these patterns every group
participates in a successful match, so captures are plain strings. -/

/-- Longest run of non-`/` characters at the front: the candidate text
for a `[^/]+`/`[^/]*` group. -/
def runOf (s : List Char) : List Char := s.takeWhile (fun c => c != '/')

/-- Backtracking over the capture length of one group: try `k`,
`k-1`, ..., `minLen`; `next` is the match continuation for the rest of
the pattern. -/
def tryFrom (next : List Char → Option (List String)) (s : List Char) (minLen : Nat) :
    Nat → Option (List String)
  | 0 =>
    if minLen == 0 then
      match next s with
      | some caps => some (String.mk [] :: caps)
      | none => none
    else none
  | k + 1 =>
    if k + 1 < minLen then none
    else
      match next (s.drop (k + 1)) with
      | some caps => some (String.mk (s.take (k + 1)) :: caps)
      | none => tryFrom next s minLen k

/-- Anchored match of a token list against the whole input. -/
def matchToks : List RTok → List Char → Option (List String)
  | [], ds => if ds.isEmpty then some [] else none
  | .lit _ :: _, [] => none
  | .lit c :: ts, d :: ds => if ciEq c d then matchToks ts ds else none
  | .reqGroup :: _, [] => none
  | .reqGroup :: ts, d :: ds =>
    if d == '/' then tryFrom (fun l => matchToks ts l) ds 1 (runOf ds).length else none
  | .optGroup :: ts, ds =>
    match ds with
    | d :: ds' =>
      if d == '/' then
        match tryFrom (fun l => matchToks ts l) ds' 0 (runOf ds').length with
        | some r => some r
        | none => tryFrom (fun l => matchToks ts l) ds 0 (runOf ds).length
      else tryFrom (fun l => matchToks ts l) ds 0 (runOf ds).length
    | [] => tryFrom (fun l => matchToks ts l) [] 0 0

/-! ## Route table, `parse` and `open` -/

/-- A decoded parameter object: insertion-ordered string-keyed mapping. -/
abbrev ParamObject := List (String × String)

/-- JS property assignment `params[key] = v`: overwrite in place or
append. -/
def setParam : ParamObject → String → String → ParamObject
  | [], k, v => [(k, v)]
  | (k', v') :: rest, k, v =>
    if k' == k then (k, v) :: rest else (k', v') :: setParam rest k v

/-- The string JS renders for `undefined`. -/
def undefinedStr : String := String.mk ['u', 'n', 'd', 'e', 'f', 'i', 'n', 'e', 'd']

/-- The decoder `createRouter` builds for a string route:
`matches.reduce((params, match, index) => { params[names[index]] =
decodeURIComponent(match); return params }, {})`.  An out-of-range
`names[index]` is the value `undefined`, giving a literal `undefined`
key; an `undefined` capture is coerced to the string `undefined` before
decoding (which then succeeds).  A malformed capture makes
`decodeURIComponent` throw: `none`. -/
def decodeGo (names : List String) : Nat → ParamObject → List (Option String) → Option ParamObject
  | _, acc, [] => some acc
  | i, acc, m :: rest =>
    let key := (names.get? i).getD undefinedStr
    match m with
    | some s =>
      match decodeURIComponentM s with
      | some v => decodeGo names (i + 1) (setParam acc key v) rest
      | none => none
    | none => decodeGo names (i + 1) (setParam acc key undefinedStr) rest

/-- Positional decoding of the capture list against the collected
parameter names. -/
def decodeParams (names : List String) (ms : List (Option String)) : Option ParamObject :=
  decodeGo names 0 [] ms

/-- One entry of `router.routes`: `[name, pattern, decoder, template?]`.
The pattern is abstracted to its match function (`path.match(pattern)`
followed by `.slice(1)`), the decoder to a function that is `none` when
the JS callback would throw.  `template` is present exactly for
string-configured routes. -/
structure Route where
  name : String
  accept : String → Option (List (Option String))
  decode : List (Option String) → Option ParamObject
  template : Option String

/-- Compilation of one string route (the `typeof value === 'string'`
branch of `createRouter`). -/
def compileRoute (name template : String) : Route :=
  let v := normTemplate template
  let sc := scanGo .top v.data
  { name := name
    accept := fun s => (matchToks sc.1 s.data).map (fun cs => cs.map (fun c => some c))
    decode := decodeParams sc.2
    template := some v }

/-- A configuration value: a template string or a prebuilt
`[RegExp, decoder]` pair. -/
inductive RouteVal where
  | str (template : String)
  | pat (accept : String → Option (List (Option String)))
        (decode : List (Option String) → Option ParamObject)

/-- One config entry to one `router.routes` entry. -/
def mkRoute (name : String) : RouteVal → Route
  | .str t => compileRoute name t
  | .pat a d => { name := name, accept := a, decode := d, template := none }

/-- `router.routes`: the config mapping in declaration order. -/
def mkTable (cfg : List (String × RouteVal)) : List Route :=
  cfg.map fun p => mkRoute p.1 p.2

/-- The parsed page value `{ path, route, params }`. -/
structure Page where
  path : String
  route : String
  params : ParamObject
deriving DecidableEq

/-- Result of `parse`: the `false` de-duplication sentinel, `undefined`,
or a page. -/
inductive ParseRes where
  | unchanged
  | noMatch
  | page (p : Page)
deriving DecidableEq

/-- The route scan of `parse`: the first entry whose pattern matches wins
and is decoded on the spot (a throwing decoder aborts the whole call);
no entry matching is `undefined`. -/
def parseScan : List Route → String → Except Unit (Option Page)
  | [], _ => .ok none
  | r :: rest, np =>
    match r.accept np with
    | some ms =>
      match r.decode ms with
      | some ps => .ok (some { path := np, route := r.name, params := ps })
      | none => .error ()
    | none => parseScan rest np

/-- `parse` (lines 151-165): normalize, short-circuit on the `prev` memo,
otherwise update the memo and scan the table.  The returned pair is
(result-or-exception, new memo): the memo is updated even when the
decoder throws, because `prev = path` runs before the scan. -/
def parse (rs : List Route) (search : Bool) (prev : Option String) (path : String) :
    Except Unit ParseRes × Option String :=
  let np := normalizePath search path
  if prev = some np then (.ok .unchanged, prev)
  else
    match parseScan rs np with
    | .ok (some p) => (.ok (.page p), some np)
    | .ok none => (.ok .noMatch, some np)
    | .error e => (.error e, some np)

/-- Observable state of one router store: the `prev` memo, the atom value
(`none` while still the initial `\x7b\x7d` object, `some v` after the first
write, where `v` is the written `Page | undefined`), and the history
operations performed so far as `(redirect, path)` pairs
(`replaceState` when `redirect`, else `pushState`). -/
structure RouterSt where
  prev : Option String
  value : Option (Option Page)
  history : List (Bool × String)
deriving DecidableEq

/-- `open(path, redirect?)` (lines 135-147): run `parse`; on any result
other than the `false` sentinel — a page or `undefined` alike — push or
replace the raw path in history and write the result into the atom. -/
def openRun (rs : List Route) (search : Bool) (st : RouterSt) (path : String)
    (redirect : Bool) : Except Unit RouterSt :=
  match parse rs search st.prev path with
  | (.ok .unchanged, p') => .ok { st with prev := p' }
  | (.ok .noMatch, p') =>
    .ok { prev := p', value := some none, history := st.history ++ [(redirect, path)] }
  | (.ok (.page pg), p') =>
    .ok { prev := p', value := some (some pg), history := st.history ++ [(redirect, path)] }
  | (.error e, _) => .error e

/-! ## `getPagePath`

The TS signature declares the parameters as a rest argument
(`...params: ParamsArg<Config, PageName>[]`), so at run time `params`
is an array whose first element is the caller's parameter object, yet
the substitution callbacks index it with the parameter *name*
(`params[i.slice(2)]`).  A JS array has no such string-keyed property
for any non-array-index name, so the lookup yields `undefined` (for a
decimal name that is a canonical index below the length it would yield
the parameter *object*, which `encodeURIComponent` coerces to
`[object Object]`). -/

/-- Is `key` a canonical array index (`0` or digits without a leading
zero)? -/
def isCanonIndex (key : String) : Bool :=
  !key.isEmpty && key.data.all Char.isDigit && (key.data = ['0'] || key.front != '0')

/-- `params[key]` where `params` is the rest-argument array. -/
def lookupArg (args : List ParamObject) (key : String) : Option String :=
  if isCanonIndex key && (key.toNat?.getD 0) < args.length then
    some (String.mk ['[', 'o', 'b', 'j', 'e', 'c', 't', ' ', 'O', 'b', 'j', 'e', 'c', 't', ']'])
  else none

/-- Replacement text for one optional marker `/:name?`:
`param` truthy (a nonempty string) gives `/` + encoded value, anything
else the empty string. -/
def optRepl (args : List ParamObject) (nm : String) : List Char :=
  match lookupArg args nm with
  | some v => if v.isEmpty then [] else '/' :: (encodeURIComponent v).data
  | none => []

/-- `template.replace(/\/:\w+\?/g, ...)`: same marker scan as the
compiler, but a marker only counts with its closing `?`. -/
def substOptGo (args : List ParamObject) : ScanSt → List Char → List Char
  | .top, [] => []
  | .top, c :: cs =>
    if c == '/' then substOptGo args .slash cs else c :: substOptGo args .top cs
  | .slash, [] => ['/']
  | .slash, c :: cs =>
    if c == ':' then
      match cs with
      | [] => ['/', ':']
      | d :: ds =>
        if isWordChar d then substOptGo args (.name [d]) ds
        else if d == '/' then '/' :: ':' :: substOptGo args .slash ds
        else '/' :: ':' :: d :: substOptGo args .top ds
    else if c == '/' then '/' :: substOptGo args .slash cs
    else '/' :: c :: substOptGo args .top cs
  | .name acc, [] => '/' :: ':' :: acc.reverse
  | .name acc, c :: cs =>
    if isWordChar c then substOptGo args (.name (c :: acc)) cs
    else if c == '?' then optRepl args (nameStr acc) ++ substOptGo args .top cs
    else if c == '/' then '/' :: ':' :: acc.reverse ++ substOptGo args .slash cs
    else '/' :: ':' :: acc.reverse ++ c :: substOptGo args .top cs

/-- Replacement text for one required marker `/:name`: `/` + the encoded
lookup result, where a missing key encodes the string `undefined`. -/
def reqRepl (args : List ParamObject) (nm : String) : List Char :=
  '/' :: (encodeURIComponent ((lookupArg args nm).getD undefinedStr)).data

/-- `.replace(/\/:\w+/g, ...)`: required-marker substitution. -/
def substReqGo (args : List ParamObject) : ScanSt → List Char → List Char
  | .top, [] => []
  | .top, c :: cs =>
    if c == '/' then substReqGo args .slash cs else c :: substReqGo args .top cs
  | .slash, [] => ['/']
  | .slash, c :: cs =>
    if c == ':' then
      match cs with
      | [] => ['/', ':']
      | d :: ds =>
        if isWordChar d then substReqGo args (.name [d]) ds
        else if d == '/' then '/' :: ':' :: substReqGo args .slash ds
        else '/' :: ':' :: d :: substReqGo args .top ds
    else if c == '/' then '/' :: substReqGo args .slash cs
    else '/' :: c :: substReqGo args .top cs
  | .name acc, [] => reqRepl args (nameStr acc)
  | .name acc, c :: cs =>
    if isWordChar c then substReqGo args (.name (c :: acc)) cs
    else if c == '/' then reqRepl args (nameStr acc) ++ substReqGo args .slash cs
    else reqRepl args (nameStr acc) ++ c :: substReqGo args .top cs

/-- `getPagePath(router, name, ...params)` (lines 239-262).  `dev` is
`process.env.NODE_ENV !== 'production'`; only then does a route without
a template throw (`.error ()`).  Otherwise the optional markers are
substituted first, then the required ones, and a missing/empty result
falls back to `/`. -/
def getPagePathRun (rs : List Route) (dev : Bool) (name : String)
    (args : List ParamObject) : Except Unit String :=
  let route? := rs.find? fun r => r.name == name
  let t? := route?.bind fun r => r.template
  if dev && (t?.getD (String.mk [])).isEmpty then .error ()
  else
    let p :=
      match t? with
      | none => String.mk []
      | some t => String.mk (substReqGo args .top (substOptGo args .top t.data))
    .ok (if p.isEmpty then String.mk ['/'] else p)

/-! ## Structural templates

The general theorems quantify over templates given structurally: a
nonempty sequence of segments, each a literal segment, a required
parameter or an optional parameter.  `render` writes such a template
back as the string the configuration would contain; well-formedness
keeps every rendered template inside the fragment where the token model
is exact (no `*`, markers are whole segments, names are `\w+`). -/

/-- A template segment. -/
inductive Seg where
  | lit (s : String)
  | req (n : String)
  | opt (n : String)

/-- A literal segment: nonempty, no `/` (it is one path segment), no `:`
(so no marker is formed), no `*` (left unescaped by the compiler) and no
`?` (so built paths survive the query split unchanged). -/
def wfLitStr (s : String) : Bool :=
  !s.data.isEmpty && s.data.all fun c => c != '/' && c != ':' && c != '*' && c != '?'

/-- A parameter name: a nonempty `\w+` word. -/
def wfName (n : String) : Bool := !n.data.isEmpty && n.data.all isWordChar

/-- Well-formedness of one segment. -/
def wfSeg : Seg → Bool
  | .lit s => wfLitStr s
  | .req n => wfName n
  | .opt n => wfName n

/-- Well-formedness of a whole structural template. -/
def wfSegs (segs : List Seg) : Bool := segs.all wfSeg

/-- The template text of one segment. -/
def renderSeg : Seg → List Char
  | .lit s => '/' :: s.data
  | .req n => '/' :: ':' :: n.data
  | .opt n => '/' :: ':' :: n.data ++ ['?']

/-- The template text of a structural template. -/
def render : List Seg → List Char
  | [] => []
  | seg :: rest => renderSeg seg ++ render rest

/-- The pattern tokens the compiler produces for one segment. -/
def toksOfSeg : Seg → List RTok
  | .lit s => .lit '/' :: s.data.map .lit
  | .req _ => [.reqGroup]
  | .opt _ => [.optGroup]

/-- The pattern tokens of a structural template. -/
def toksOf : List Seg → List RTok
  | [] => []
  | seg :: rest => toksOfSeg seg ++ toksOf rest

/-- The parameter names of a structural template, in order. -/
def namesOf : List Seg → List String
  | [] => []
  | .lit _ :: rest => namesOf rest
  | .req n :: rest => n :: namesOf rest
  | .opt n :: rest => n :: namesOf rest

/-- A substituted parameter value: nonempty, free of `/` and `?`, and a
fixed point of URL decoding. -/
def goodVal (v : String) : Bool :=
  !v.data.isEmpty && v.data.all (fun c => c != '/' && c != '?') &&
    decodeURIComponentM v == some v

/-- The value list fits an all-required template: one good value per
required parameter, no optional parameters, nothing left over. -/
def valsOk : List Seg → List String → Bool
  | [], vs => vs.isEmpty
  | .lit _ :: rest, vs => valsOk rest vs
  | .req _ :: rest, v :: vs => goodVal v && valsOk rest vs
  | .req _ :: _, [] => false
  | .opt _ :: _, _ => false

/-- The concrete path obtained by substituting the values for the
required markers of the template. -/
def renderSub : List Seg → List String → List Char
  | [], _ => []
  | .lit s :: rest, vs => '/' :: s.data ++ renderSub rest vs
  | .req _ :: rest, v :: vs => '/' :: v.data ++ renderSub rest vs
  | .req _ :: _, [] => []
  | .opt _ :: _, _ => []

/-- What the pattern tail `/?([^/]*)$` accepts after the literal part:
an optional `/` followed by a possibly empty run of non-`/` characters,
which becomes the capture. -/
def optTailMatch (t : List Char) : Option (List (Option String)) :=
  match t with
  | '/' :: rest =>
    if rest.all (fun c => c != '/') then some [some (String.mk rest)] else none
  | t' => if t'.all (fun c => c != '/') then some [some (String.mk t')] else none

/-! ## Concrete instances

The example configuration of the specification, a route with a trailing
optional parameter, an overlapping pair of routes, and a custom
(pattern + decoder) route, used to evaluate the model on concrete
inputs. -/

/-- The spec's example configuration:
`{ home: '/', category: '/posts/:categoryId', post: '/posts/:categoryId/:id' }`. -/
def exampleConfig : List (String × RouteVal) :=
  [((r"home"), .str (r"/")),
   ((r"category"), .str (r"/posts/:categoryId")),
   ((r"post"), .str (r"/posts/:categoryId/:id"))]

/-- `router.routes` for the example configuration. -/
def exampleTable : List Route := mkTable exampleConfig

/-- Two overlapping routes, the more generic one declared first. -/
def overlapTable : List Route :=
  mkTable [((r"category"), .str (r"/posts/:categoryId")),
           ((r"special"), .str (r"/posts/special"))]

/-- A route registered with a prebuilt pattern and decoder: its table
entry has no template. -/
def customRoute : Route :=
  { name := (r"api")
    accept := fun _ => none
    decode := fun _ => some []
    template := none }

/-! ## Scanner correctness on rendered templates -/

theorem string_mk_data (s : String) : String.mk s.data = s := rfl

theorem wfLit_chars {s : String} (h : wfLitStr s = true) :
    ∀ c ∈ s.data, c ≠ '/' ∧ c ≠ ':' ∧ c ≠ '*' ∧ c ≠ '?' := by
  intro c hc
  simp only [wfLitStr, Bool.and_eq_true, List.all_eq_true] at h
  have := h.2 c hc
  simp only [Bool.and_eq_true, bne_iff_ne, ne_eq] at this
  exact ⟨this.1.1.1, this.1.1.2, this.1.2, this.2⟩

theorem wfLit_ne_nil {s : String} (h : wfLitStr s = true) : s.data ≠ [] := by
  simp only [wfLitStr, Bool.and_eq_true] at h
  simpa using h.1

theorem wfName_words {n : String} (h : wfName n = true) :
    ∀ c ∈ n.data, isWordChar c = true := by
  simp only [wfName, Bool.and_eq_true, List.all_eq_true] at h
  exact h.2

theorem wfName_ne_nil {n : String} (h : wfName n = true) : n.data ≠ [] := by
  simp only [wfName, Bool.and_eq_true] at h
  simpa using h.1

theorem render_nil_iff (segs : List Seg) : render segs = [] ↔ segs = [] := by
  cases segs with
  | nil => simp [render]
  | cons seg rest => cases seg <;> simp [render, renderSeg]

theorem render_shape (segs : List Seg) (h : segs ≠ []) :
    ∃ t, render segs = '/' :: t := by
  cases segs with
  | nil => exact absurd rfl h
  | cons seg rest => cases seg <;> exact ⟨_, rfl⟩

theorem scanGo_top_lits (cs : List Char) (suffix : List Char) (h : ∀ c ∈ cs, c ≠ '/') :
    scanGo .top (cs ++ suffix) =
      (cs.map RTok.lit ++ (scanGo .top suffix).1, (scanGo .top suffix).2) := by
  induction cs with
  | nil => simp
  | cons c cs ih =>
    have hc : (c == '/') = false := by
      simpa using h c (List.mem_cons_self c cs)
    simp [scanGo, hc, ih fun x hx => h x (List.mem_cons_of_mem c hx)]

theorem scanGo_name_words (cs : List Char) (h : ∀ c ∈ cs, isWordChar c = true) :
    ∀ acc suffix, scanGo (.name acc) (cs ++ suffix) =
      scanGo (.name (cs.reverse ++ acc)) suffix := by
  induction cs with
  | nil => intro acc suffix; simp
  | cons c cs ih =>
    intro acc suffix
    have hc : isWordChar c = true := h c (List.mem_cons_self c cs)
    have step : scanGo (.name acc) (c :: (cs ++ suffix)) =
        scanGo (.name (c :: acc)) (cs ++ suffix) := by
      simp [scanGo, hc]
    rw [List.cons_append, step, ih (fun x hx => h x (List.mem_cons_of_mem c hx)) (c :: acc) suffix]
    simp

theorem scanGo_top_slash (cs : List Char) : scanGo .top ('/' :: cs) = scanGo .slash cs := by
  simp [scanGo]

theorem scanGo_slash_other {c : Char} (h1 : (c == ':') = false) (h2 : (c == '/') = false)
    (cs : List Char) :
    scanGo .slash (c :: cs) =
      (.lit '/' :: .lit c :: (scanGo .top cs).1, (scanGo .top cs).2) := by
  cases cs with
  | nil => simp [scanGo, h1, h2]
  | cons d ds => simp [scanGo, h1, h2]

theorem scanGo_slash_colon_word {d : Char} (hd : isWordChar d = true) (ds : List Char) :
    scanGo .slash (':' :: d :: ds) = scanGo (.name [d]) ds := by
  simp [scanGo, hd]

theorem scanGo_name_nil (acc : List Char) :
    scanGo (.name acc) [] = ([.reqGroup], [nameStr acc]) := rfl

theorem scanGo_name_slash (acc t : List Char) :
    scanGo (.name acc) ('/' :: t) =
      (.reqGroup :: (scanGo .slash t).1, nameStr acc :: (scanGo .slash t).2) := by
  have h1 : isWordChar '/' = false := by decide
  simp [scanGo, h1]

theorem scanGo_name_q (acc cs : List Char) :
    scanGo (.name acc) ('?' :: cs) =
      (.optGroup :: (scanGo .top cs).1, nameStr acc :: (scanGo .top cs).2) := by
  have h1 : isWordChar '?' = false := by decide
  simp [scanGo, h1]

/-- The compiler's scan of a rendered well-formed template yields exactly
the structural tokens and names. -/
theorem scan_render : ∀ segs : List Seg, wfSegs segs = true →
    scanGo .top (render segs) = (toksOf segs, namesOf segs) := by
  intro segs
  induction segs with
  | nil => intro _; rfl
  | cons seg rest ih =>
    intro hwf
    have hseg : wfSeg seg = true := by
      simp only [wfSegs, List.all_cons, Bool.and_eq_true] at hwf; exact hwf.1
    have hrest : wfSegs rest = true := by
      simp only [wfSegs, List.all_cons, Bool.and_eq_true] at hwf; exact hwf.2
    have IH := ih hrest
    cases seg with
    | lit s =>
      obtain ⟨c, cs, hdata⟩ : ∃ c cs, s.data = c :: cs := by
        cases hd : s.data with
        | nil => exact absurd hd (wfLit_ne_nil hseg)
        | cons c cs => exact ⟨c, cs, rfl⟩
      have hc := wfLit_chars hseg c (by rw [hdata]; exact List.mem_cons_self c cs)
      have hcs : ∀ x ∈ cs, x ≠ '/' := fun x hx =>
        (wfLit_chars hseg x (by rw [hdata]; exact List.mem_cons_of_mem c hx)).1
      have hcslash : (c == '/') = false := by simpa using hc.1
      have hccolon : (c == ':') = false := by simpa using hc.2.1
      show scanGo .top (('/' :: s.data) ++ render rest) = _
      rw [hdata]
      have step1 : ('/' :: (c :: cs)) ++ render rest = '/' :: (c :: (cs ++ render rest)) := by
        simp
      rw [step1, scanGo_top_slash, scanGo_slash_other hccolon hcslash,
        scanGo_top_lits cs (render rest) hcs, IH]
      simp [toksOf, toksOfSeg, namesOf, hdata]
    | req n =>
      obtain ⟨d, ds, hdata⟩ : ∃ d ds, n.data = d :: ds := by
        cases hd : n.data with
        | nil => exact absurd hd (wfName_ne_nil hseg)
        | cons d ds => exact ⟨d, ds, rfl⟩
      have hd := wfName_words hseg d (by rw [hdata]; exact List.mem_cons_self d ds)
      have hds : ∀ x ∈ ds, isWordChar x = true := fun x hx =>
        wfName_words hseg x (by rw [hdata]; exact List.mem_cons_of_mem d hx)
      have hname : nameStr (ds.reverse ++ [d]) = n := by
        simp [nameStr, ← hdata, string_mk_data]
      show scanGo .top (('/' :: ':' :: n.data) ++ render rest) = _
      rw [hdata]
      have step1 : ('/' :: ':' :: (d :: ds)) ++ render rest =
          '/' :: (':' :: d :: (ds ++ render rest)) := by simp
      rw [step1, scanGo_top_slash, scanGo_slash_colon_word hd,
        scanGo_name_words ds hds [d] (render rest)]
      by_cases h0 : rest = []
      · subst h0
        rw [show render ([] : List Seg) = [] from rfl, scanGo_name_nil, hname]
        simp [toksOf, toksOfSeg, namesOf]
      · obtain ⟨t, ht⟩ := render_shape rest h0
        rw [ht, scanGo_name_slash]
        have hslash : scanGo .slash t = (toksOf rest, namesOf rest) := by
          rw [← scanGo_top_slash, ← ht, IH]
        rw [hslash, hname]
        simp [toksOf, toksOfSeg, namesOf]
    | opt n =>
      obtain ⟨d, ds, hdata⟩ : ∃ d ds, n.data = d :: ds := by
        cases hd : n.data with
        | nil => exact absurd hd (wfName_ne_nil hseg)
        | cons d ds => exact ⟨d, ds, rfl⟩
      have hd := wfName_words hseg d (by rw [hdata]; exact List.mem_cons_self d ds)
      have hds : ∀ x ∈ ds, isWordChar x = true := fun x hx =>
        wfName_words hseg x (by rw [hdata]; exact List.mem_cons_of_mem d hx)
      have hname : nameStr (ds.reverse ++ [d]) = n := by
        simp [nameStr, ← hdata, string_mk_data]
      show scanGo .top (('/' :: ':' :: (n.data ++ ['?'])) ++ render rest) = _
      rw [hdata]
      have step1 : ('/' :: ':' :: ((d :: ds) ++ ['?'])) ++ render rest =
          '/' :: (':' :: d :: (ds ++ ('?' :: render rest))) := by simp
      rw [step1, scanGo_top_slash, scanGo_slash_colon_word hd,
        scanGo_name_words ds hds [d] ('?' :: render rest), scanGo_name_q, hname, IH]
      simp [toksOf, toksOfSeg, namesOf]

/-! ## Matcher lemmas -/

theorem ciEq_refl (c : Char) : ciEq c c = true := by simp [ciEq]

/-- A literal token block consumes an identical text prefix. -/
theorem matchToks_lit_self (cs : List Char) (ts : List RTok) (ds : List Char) :
    matchToks (cs.map RTok.lit ++ ts) (cs ++ ds) = matchToks ts ds := by
  induction cs with
  | nil => rfl
  | cons c cs ih => simp [matchToks, ciEq_refl, ih]

theorem runOf_all {v : List Char} (h : ∀ c ∈ v, c ≠ '/') : runOf v = v := by
  induction v with
  | nil => rfl
  | cons c cs ih =>
    have hc : (c != '/') = true := by simpa using h c (List.mem_cons_self c cs)
    simp only [runOf, List.takeWhile_cons, hc, if_true]
    exact congrArg (c :: ·) (ih fun x hx => h x (List.mem_cons_of_mem c hx))

theorem runOf_append {v : List Char} (t : List Char) (h : ∀ c ∈ v, c ≠ '/') :
    runOf (v ++ t) = v ++ runOf t := by
  induction v with
  | nil => rfl
  | cons c cs ih =>
    have hc : (c != '/') = true := by simpa using h c (List.mem_cons_self c cs)
    simp only [List.cons_append, runOf, List.takeWhile_cons, hc, if_true]
    exact congrArg (c :: ·) (ih fun x hx => h x (List.mem_cons_of_mem c hx))

theorem runOf_slash (t : List Char) : runOf ('/' :: t) = [] := by
  simp [runOf]

/-- Greedy backtracking succeeds immediately at the first candidate that
lets the continuation match. -/
theorem tryFrom_first (next : List Char → Option (List String)) (s : List Char)
    (minLen k : Nat) (caps : List String) (hmin : minLen ≤ k)
    (h : next (s.drop k) = some caps) :
    tryFrom next s minLen k = some (String.mk (s.take k) :: caps) := by
  cases k with
  | zero =>
    have h0 : minLen = 0 := Nat.le_zero.mp hmin
    simp only [h0, tryFrom, beq_self_eq_true, if_true]
    rw [show s.drop 0 = s from rfl] at h
    simp [h]
  | succ k =>
    simp only [tryFrom, Nat.not_lt.mpr hmin, if_false, h]

/-- One required group against `/` + value + tail: when the value is a
nonempty slash-free segment and the tail is empty or starts a new
segment, the greedy group captures exactly the value. -/
theorem matchToks_req_step (ts : List RTok) (v tail : List Char) (caps : List String)
    (hv : v ≠ []) (hslash : ∀ c ∈ v, c ≠ '/')
    (htail : tail = [] ∨ ∃ t, tail = '/' :: t)
    (h : matchToks ts tail = some caps) :
    matchToks (.reqGroup :: ts) ('/' :: (v ++ tail)) = some (String.mk v :: caps) := by
  have hrun : runOf (v ++ tail) = v := by
    rcases htail with rfl | ⟨t, rfl⟩
    · rw [List.append_nil]; exact runOf_all hslash
    · rw [runOf_append _ hslash, runOf_slash, List.append_nil]
  have hdrop : (v ++ tail).drop v.length = tail := List.drop_left v tail
  have htake : (v ++ tail).take v.length = v := List.take_left v tail
  have hfirst := tryFrom_first (fun l => matchToks ts l) (v ++ tail) 1 v.length caps
    (Nat.one_le_iff_ne_zero.mpr (by simpa using hv)) (by rw [hdrop]; exact h)
  simp only [matchToks, beq_self_eq_true, if_true, hrun, hfirst, htake]

/-- Backtracking a group at the very end of the pattern: only consuming
the entire remaining input lets the empty continuation match. -/
theorem tryFrom_empty (s : List Char) (k : Nat) :
    tryFrom (fun l => matchToks [] l) s 0 k =
      if s.length ≤ k then some [String.mk s] else none := by
  induction k with
  | zero =>
    simp only [tryFrom, beq_self_eq_true, if_true]
    cases s with
    | nil => simp [matchToks]
    | cons c cs => simp [matchToks]
  | succ k ih =>
    have hnotlt : ¬(k + 1 < 0) := Nat.not_lt.mpr (Nat.zero_le _)
    by_cases h : s.length ≤ k + 1
    · have hdrop : s.drop (k + 1) = [] := List.drop_eq_nil_of_le h
      have htake : s.take (k + 1) = s := List.take_of_length_le h
      simp only [tryFrom, hnotlt, if_false, hdrop, htake, matchToks, List.isEmpty_nil,
        if_true, h]
    · have hne : ¬s.length ≤ k := fun hh => h (Nat.le_succ_of_le hh)
      have hdrop : s.drop (k + 1) ≠ [] := by
        intro hc
        exact h (List.drop_eq_nil_iff.mp hc)
      have hmt : matchToks [] (s.drop (k + 1)) = none := by
        cases hd : s.drop (k + 1) with
        | nil => exact absurd hd hdrop
        | cons x xs => simp [matchToks]
      simp only [tryFrom, hnotlt, if_false, hmt, ih, hne, h]

/-- `tryFrom_empty` with the continuation in the form `simp` produces
when it unfolds `matchToks`. -/
theorem tryFrom_empty' (s : List Char) (k : Nat) :
    tryFrom (fun l => if l.isEmpty = true then some [] else none) s 0 k =
      if s.length ≤ k then some [String.mk s] else none := by
  have hfun : (fun l => if l.isEmpty = true then some ([] : List String) else none) =
      (fun l : List Char => matchToks [] l) := by
    funext l
    simp [matchToks]
  rw [hfun, tryFrom_empty]

theorem runOf_eq_self_iff (s : List Char) :
    runOf s = s ↔ s.all (fun c => c != '/') = true := by
  induction s with
  | nil => simp [runOf]
  | cons c cs ih =>
    by_cases hc : (c != '/') = true
    · rw [show runOf (c :: cs) = c :: runOf cs from by simp [runOf, List.takeWhile_cons, hc]]
      simp only [List.all_cons, hc, Bool.true_and, List.cons.injEq, true_and]
      exact ih
    · rw [show runOf (c :: cs) = [] from by simp [runOf, List.takeWhile_cons, hc]]
      simp [List.all_cons, hc]

/-- A trailing optional group after a slash: accepted exactly when the
remainder is one slash-free run, captured whole. -/
theorem matchToks_opt_end_slash (rest : List Char) :
    matchToks [RTok.optGroup] ('/' :: rest) =
      if rest.all (fun c => c != '/') then some [String.mk rest] else none := by
  have hbranch2 : tryFrom (fun l : List Char => if l.isEmpty = true then some [] else none)
      ('/' :: rest) 0 (runOf ('/' :: rest)).length = none := by
    rw [runOf_slash]
    simp [tryFrom]
  by_cases h : rest.all (fun c => c != '/') = true
  · have hrun : runOf rest = rest := (runOf_eq_self_iff rest).mpr h
    simp only [matchToks, beq_self_eq_true, if_true]
    rw [tryFrom_empty', hrun, if_pos (le_refl _)]
    simp [h]
  · have hsub : List.Sublist (runOf rest) rest := List.takeWhile_sublist _
    have hlt : ¬rest.length ≤ (runOf rest).length := by
      intro hle
      exact h ((runOf_eq_self_iff rest).mp
        (hsub.eq_of_length (Nat.le_antisymm hsub.length_le hle)))
    simp only [matchToks, beq_self_eq_true, if_true]
    rw [tryFrom_empty', if_neg hlt]
    simp only [h, if_false]
    simpa using hbranch2

/-- A trailing optional group reached without a leading slash: `/?`
matches nothing and `([^/]*)` must swallow the whole remainder. -/
theorem matchToks_opt_end_other (ds : List Char) (hhead : ∀ t, ds ≠ '/' :: t) :
    matchToks [RTok.optGroup] ds =
      if ds.all (fun c => c != '/') then some [String.mk ds] else none := by
  cases ds with
  | nil =>
    simp only [List.all_nil, if_true]
    rfl
  | cons d ds' =>
    have hd : (d == '/') = false := by
      cases hdd : d == '/' with
      | false => rfl
      | true => exact absurd (by rw [eq_of_beq hdd]) (hhead ds')
    by_cases h : (d :: ds').all (fun c => c != '/') = true
    · have hrun : runOf (d :: ds') = d :: ds' := (runOf_eq_self_iff _).mpr h
      simp only [matchToks, hd, Bool.false_eq_true, if_false]
      rw [tryFrom_empty', hrun, if_pos (le_refl _)]
      simp [h]
    · have hsub : List.Sublist (runOf (d :: ds')) (d :: ds') := List.takeWhile_sublist _
      have hlt : ¬(d :: ds').length ≤ (runOf (d :: ds')).length := by
        intro hle
        exact h ((runOf_eq_self_iff _).mp
          (hsub.eq_of_length (Nat.le_antisymm hsub.length_le hle)))
      simp only [matchToks, hd, Bool.false_eq_true, if_false]
      rw [tryFrom_empty', if_neg hlt]
      simp [h]

/-! ## Round trip for all-required templates -/

theorem goodVal_ne_nil {v : String} (h : goodVal v = true) : v.data ≠ [] := by
  simp only [goodVal, Bool.and_eq_true] at h
  simpa using h.1.1

theorem goodVal_noSlash {v : String} (h : goodVal v = true) : ∀ c ∈ v.data, c ≠ '/' := by
  simp only [goodVal, Bool.and_eq_true, List.all_eq_true] at h
  intro c hc
  have := h.1.2 c hc
  simp only [Bool.and_eq_true, bne_iff_ne, ne_eq] at this
  exact this.1

theorem goodVal_noQ {v : String} (h : goodVal v = true) : ∀ c ∈ v.data, c ≠ '?' := by
  simp only [goodVal, Bool.and_eq_true, List.all_eq_true] at h
  intro c hc
  have := h.1.2 c hc
  simp only [Bool.and_eq_true, bne_iff_ne, ne_eq] at this
  exact this.2

theorem goodVal_decode {v : String} (h : goodVal v = true) :
    decodeURIComponentM v = some v := by
  simp only [goodVal, Bool.and_eq_true] at h
  exact eq_of_beq h.2

/-- A substituted path is empty or starts a segment. -/
theorem renderSub_shape (segs : List Seg) (vals : List String) (h : valsOk segs vals = true) :
    renderSub segs vals = [] ∨ ∃ t, renderSub segs vals = '/' :: t := by
  cases segs with
  | nil => exact Or.inl rfl
  | cons seg rest =>
    right
    cases seg with
    | lit s => exact ⟨_, rfl⟩
    | req n =>
      cases vals with
      | nil => simp [valsOk] at h
      | cons v vs => exact ⟨_, rfl⟩
    | opt n => simp [valsOk] at h

/-- Core of the round trip: matching the substituted path against the
compiled tokens recovers exactly the substituted values. -/
theorem matchToks_renderSub : ∀ (segs : List Seg) (vals : List String),
    valsOk segs vals = true →
    matchToks (toksOf segs) (renderSub segs vals) = some vals := by
  intro segs
  induction segs with
  | nil =>
    intro vals h
    have : vals = [] := by simpa [valsOk] using h
    subst this
    rfl
  | cons seg rest ih =>
    intro vals h
    cases seg with
    | lit s =>
      have hv : valsOk rest vals = true := by simpa [valsOk] using h
      show matchToks ((RTok.lit '/' :: s.data.map RTok.lit) ++ toksOf rest)
        (('/' :: s.data) ++ renderSub rest vals) = some vals
      have : RTok.lit '/' :: s.data.map RTok.lit = ('/' :: s.data).map RTok.lit := rfl
      rw [this, matchToks_lit_self, ih vals hv]
    | req n =>
      cases vals with
      | nil => simp [valsOk] at h
      | cons v vs =>
        have hgv : goodVal v = true := by
          simp only [valsOk, Bool.and_eq_true] at h
          exact h.1
        have hvs : valsOk rest vs = true := by
          simp only [valsOk, Bool.and_eq_true] at h
          exact h.2
        show matchToks ([RTok.reqGroup] ++ toksOf rest)
          ('/' :: (v.data ++ renderSub rest vs)) = some (v :: vs)
        rw [List.singleton_append]
        have := matchToks_req_step (toksOf rest) v.data (renderSub rest vs) vs
          (goodVal_ne_nil hgv) (goodVal_noSlash hgv) (renderSub_shape rest vs hvs)
          (ih vs hvs)
        rw [this, string_mk_data]
    | opt n => simp [valsOk] at h

/-! ## Normalization identities -/

theorem takeWhile_of_all {α} {f : α → Bool} : ∀ {l : List α}, (∀ c ∈ l, f c = true) →
    l.takeWhile f = l := by
  intro l
  induction l with
  | nil => intro _; rfl
  | cons c cs ih =>
    intro h
    rw [List.takeWhile_cons, if_pos (h c (List.mem_cons_self c cs))]
    exact congrArg (c :: ·) (ih fun x hx => h x (List.mem_cons_of_mem c hx))

theorem goNorm_cons_ne (c : Char) (hc : c ≠ '/') (cs : List Char) :
    goNorm (c :: cs) = c :: goNorm cs := by
  cases cs with
  | nil => simp [goNorm, hc]
  | cons d ds =>
    cases hd : d == '?' with
    | true => simp [goNorm, hc]
    | false => simp [goNorm, hc]

theorem goNorm_slash_cons (d : Char) (hd : d ≠ '?') (ds : List Char) :
    goNorm ('/' :: d :: ds) = '/' :: goNorm (d :: ds) := by
  simp [goNorm, hd]

theorem goNorm_id : ∀ p : List Char, (∀ c ∈ p, c ≠ '?') → p.getLast? ≠ some '/' →
    goNorm p = p := by
  intro p
  induction p with
  | nil => intro _ _; rfl
  | cons c cs ih =>
    intro hq hlast
    cases cs with
    | nil =>
      have hc : c ≠ '/' := by
        intro h
        exact hlast (by simp [h])
      rw [goNorm_cons_ne c hc]
      rfl
    | cons d ds =>
      have hlast' : (d :: ds).getLast? ≠ some '/' := by
        rwa [List.getLast?_cons_cons] at hlast
      have hq' : ∀ x ∈ d :: ds, x ≠ '?' := fun x hx => hq x (List.mem_cons_of_mem c hx)
      by_cases hc : c = '/'
      · subst hc
        have hd : d ≠ '?' := hq d (List.mem_cons_of_mem _ (List.mem_cons_self d ds))
        rw [goNorm_slash_cons d hd ds, ih hq' hlast']
      · rw [goNorm_cons_ne c hc, ih hq' hlast']

/-- `parse`'s normalization is the identity on a nonempty path that has
no query part and no trailing slash. -/
theorem normalizePath_id (p : List Char) (hp : p ≠ []) (hq : ∀ c ∈ p, c ≠ '?')
    (hlast : p.getLast? ≠ some '/') : normalizePath false (String.mk p) = String.mk p := by
  unfold normalizePath
  have hq' : ∀ c ∈ p, (c != '?') = true := by
    intro c hc
    simpa using hq c hc
  have hemp : p.isEmpty = false := by
    cases p with
    | nil => exact absurd rfl hp
    | cons c cs => rfl
  simp only [Bool.false_eq_true, if_false, string_mk_data]
  rw [takeWhile_of_all hq', goNorm_id p hq hlast, hemp]
  rfl

/-- The compiler's template normalization is the identity on a nonempty
template without a trailing slash. -/
theorem normTemplate_id (t : List Char) (hne : t ≠ []) (hlast : t.getLast? ≠ some '/') :
    normTemplate (String.mk t) = String.mk t := by
  unfold normTemplate stripTrailing
  have h1 : ((String.mk t).data.getLast? == some '/') = false := by
    rw [show (String.mk t).data = t from rfl]
    cases h : t.getLast? == some '/' with
    | false => rfl
    | true => exact absurd (eq_of_beq h) hlast
  have hemp : t.isEmpty = false := by
    cases t with
    | nil => exact absurd rfl hne
    | cons c cs => rfl
  rw [h1]
  simp only [Bool.false_eq_true, if_false]
  rw [hemp]
  rfl

/-! ## Character facts about rendered templates and paths -/

theorem getLast?_ne_of_all {l : List Char} {c : Char} (h : ∀ x ∈ l, x ≠ c) (_ : l ≠ []) :
    l.getLast? ≠ some c := by
  intro hc
  obtain ⟨hne, heq⟩ := List.mem_getLast?_eq_getLast (l := l) (x := c) (Option.mem_def.mpr hc)
  exact h c (heq ▸ List.getLast_mem hne) rfl

theorem isWordChar_ne_slash {c : Char} (h : isWordChar c = true) : c ≠ '/' := by
  intro hc
  subst hc
  exact absurd h (by decide)

theorem renderSeg_getLast {seg : Seg} (h : wfSeg seg = true) :
    (renderSeg seg).getLast? ≠ some '/' := by
  cases seg with
  | lit s =>
    obtain ⟨c, cs, hdata⟩ : ∃ c cs, s.data = c :: cs := by
      cases hd : s.data with
      | nil => exact absurd hd (wfLit_ne_nil h)
      | cons c cs => exact ⟨c, cs, rfl⟩
    show ('/' :: s.data).getLast? ≠ some '/'
    rw [hdata, List.getLast?_cons_cons]
    exact getLast?_ne_of_all
      (fun x hx => (wfLit_chars h x (by rw [hdata]; exact hx)).1) (List.cons_ne_nil c cs)
  | req n =>
    obtain ⟨d, ds, hdata⟩ : ∃ d ds, n.data = d :: ds := by
      cases hd : n.data with
      | nil => exact absurd hd (wfName_ne_nil h)
      | cons d ds => exact ⟨d, ds, rfl⟩
    show ('/' :: ':' :: n.data).getLast? ≠ some '/'
    rw [hdata, List.getLast?_cons_cons, List.getLast?_cons_cons]
    exact getLast?_ne_of_all
      (fun x hx => isWordChar_ne_slash (wfName_words h x (by rw [hdata]; exact hx)))
      (List.cons_ne_nil d ds)
  | opt n =>
    show ('/' :: ':' :: (n.data ++ ['?'])).getLast? ≠ some '/'
    have hsplit : '/' :: ':' :: (n.data ++ ['?']) = ('/' :: ':' :: n.data) ++ ['?'] := by
      simp
    rw [hsplit, List.getLast?_append_of_ne_nil _ (by simp)]
    decide

theorem render_getLast (segs : List Seg) (hwf : wfSegs segs = true) (hne : segs ≠ []) :
    (render segs).getLast? ≠ some '/' := by
  induction segs with
  | nil => exact absurd rfl hne
  | cons seg rest ih =>
    have hseg : wfSeg seg = true := by
      simp only [wfSegs, List.all_cons, Bool.and_eq_true] at hwf
      exact hwf.1
    have hrest : wfSegs rest = true := by
      simp only [wfSegs, List.all_cons, Bool.and_eq_true] at hwf
      exact hwf.2
    by_cases h0 : rest = []
    · subst h0
      show (renderSeg seg ++ render []).getLast? ≠ some '/'
      rw [show render ([] : List Seg) = [] from rfl, List.append_nil]
      exact renderSeg_getLast hseg
    · show (renderSeg seg ++ render rest).getLast? ≠ some '/'
      rw [List.getLast?_append_of_ne_nil _ ((render_nil_iff rest).not.mpr h0)]
      exact ih hrest h0

theorem renderSub_ne_nil (segs : List Seg) (vals : List String) (hok : valsOk segs vals = true)
    (hne : segs ≠ []) : renderSub segs vals ≠ [] := by
  cases segs with
  | nil => exact absurd rfl hne
  | cons seg rest =>
    cases seg with
    | lit s => exact List.cons_ne_nil _ _
    | req n =>
      cases vals with
      | nil => simp [valsOk] at hok
      | cons v vs => exact List.cons_ne_nil _ _
    | opt n => simp [valsOk] at hok

theorem renderSub_noQ : ∀ (segs : List Seg) (vals : List String), wfSegs segs = true →
    valsOk segs vals = true → ∀ c ∈ renderSub segs vals, c ≠ '?' := by
  intro segs
  induction segs with
  | nil => intro vals _ _ c hc; simp [renderSub] at hc
  | cons seg rest ih =>
    intro vals hwf hok c hc
    have hseg : wfSeg seg = true := by
      simp only [wfSegs, List.all_cons, Bool.and_eq_true] at hwf
      exact hwf.1
    have hrest : wfSegs rest = true := by
      simp only [wfSegs, List.all_cons, Bool.and_eq_true] at hwf
      exact hwf.2
    cases seg with
    | lit s =>
      have hok' : valsOk rest vals = true := by simpa [valsOk] using hok
      rcases List.mem_cons.mp hc with rfl | hc'
      · decide
      · rcases List.mem_append.mp hc' with hs | hr
        · exact (wfLit_chars hseg c hs).2.2.2
        · exact ih vals hrest hok' c hr
    | req n =>
      cases vals with
      | nil => simp [valsOk] at hok
      | cons v vs =>
        have hgv : goodVal v = true := by
          simp only [valsOk, Bool.and_eq_true] at hok
          exact hok.1
        have hvs : valsOk rest vs = true := by
          simp only [valsOk, Bool.and_eq_true] at hok
          exact hok.2
        rcases List.mem_cons.mp hc with rfl | hc'
        · decide
        · rcases List.mem_append.mp hc' with hs | hr
          · exact goodVal_noQ hgv c hs
          · exact ih vs hrest hvs c hr
    | opt n => simp [valsOk] at hok

theorem renderSub_getLast : ∀ (segs : List Seg) (vals : List String), wfSegs segs = true →
    valsOk segs vals = true → segs ≠ [] →
    (renderSub segs vals).getLast? ≠ some '/' := by
  intro segs
  induction segs with
  | nil => intro vals _ _ hne; exact absurd rfl hne
  | cons seg rest ih =>
    intro vals hwf hok _
    have hseg : wfSeg seg = true := by
      simp only [wfSegs, List.all_cons, Bool.and_eq_true] at hwf
      exact hwf.1
    have hrest : wfSegs rest = true := by
      simp only [wfSegs, List.all_cons, Bool.and_eq_true] at hwf
      exact hwf.2
    cases seg with
    | lit s =>
      have hok' : valsOk rest vals = true := by simpa [valsOk] using hok
      show ('/' :: (s.data ++ renderSub rest vals)).getLast? ≠ some '/'
      by_cases h0 : rest = []
      · subst h0
        have : renderSub ([] : List Seg) vals = [] := rfl
        rw [this, List.append_nil]
        obtain ⟨c, cs, hdata⟩ : ∃ c cs, s.data = c :: cs := by
          cases hd : s.data with
          | nil => exact absurd hd (wfLit_ne_nil hseg)
          | cons c cs => exact ⟨c, cs, rfl⟩
        rw [hdata, List.getLast?_cons_cons]
        exact getLast?_ne_of_all
          (fun x hx => (wfLit_chars hseg x (by rw [hdata]; exact hx)).1)
          (List.cons_ne_nil c cs)
      · have step : '/' :: (s.data ++ renderSub rest vals) =
            ('/' :: s.data) ++ renderSub rest vals := by simp
        rw [step, List.getLast?_append_of_ne_nil _ (renderSub_ne_nil rest vals hok' h0)]
        exact ih vals hrest hok' h0
    | req n =>
      cases vals with
      | nil => simp [valsOk] at hok
      | cons v vs =>
        have hgv : goodVal v = true := by
          simp only [valsOk, Bool.and_eq_true] at hok
          exact hok.1
        have hvs : valsOk rest vs = true := by
          simp only [valsOk, Bool.and_eq_true] at hok
          exact hok.2
        show ('/' :: (v.data ++ renderSub rest vs)).getLast? ≠ some '/'
        by_cases h0 : rest = []
        · subst h0
          have : renderSub ([] : List Seg) vs = [] := rfl
          rw [this, List.append_nil]
          obtain ⟨c, cs, hdata⟩ : ∃ c cs, v.data = c :: cs := by
            cases hd : v.data with
            | nil => exact absurd hd (goodVal_ne_nil hgv)
            | cons c cs => exact ⟨c, cs, rfl⟩
          rw [hdata, List.getLast?_cons_cons]
          exact getLast?_ne_of_all
            (fun x hx => goodVal_noSlash hgv x (by rw [hdata]; exact hx))
            (List.cons_ne_nil c cs)
        · have step : '/' :: (v.data ++ renderSub rest vs) =
              ('/' :: v.data) ++ renderSub rest vs := by simp
          rw [step, List.getLast?_append_of_ne_nil _ (renderSub_ne_nil rest vs hvs h0)]
          exact ih vs hrest hvs h0
    | opt n => simp [valsOk] at hok

theorem valsOk_all_good : ∀ (segs : List Seg) (vals : List String), valsOk segs vals = true →
    ∀ v ∈ vals, goodVal v = true := by
  intro segs
  induction segs with
  | nil =>
    intro vals h v hv
    have : vals = [] := by simpa [valsOk] using h
    subst this
    simp at hv
  | cons seg rest ih =>
    intro vals h v hv
    cases seg with
    | lit s => exact ih vals (by simpa [valsOk] using h) v hv
    | req n =>
      cases vals with
      | nil => simp [valsOk] at h
      | cons w ws =>
        simp only [valsOk, Bool.and_eq_true] at h
        rcases List.mem_cons.mp hv with rfl | hv'
        · exact h.1
        · exact ih ws h.2 v hv'
    | opt n => simp [valsOk] at h

theorem namesOf_length : ∀ (segs : List Seg) (vals : List String), valsOk segs vals = true →
    (namesOf segs).length = vals.length := by
  intro segs
  induction segs with
  | nil =>
    intro vals h
    have : vals = [] := by simpa [valsOk] using h
    subst this
    rfl
  | cons seg rest ih =>
    intro vals h
    cases seg with
    | lit s => exact ih vals (by simpa [valsOk] using h)
    | req n =>
      cases vals with
      | nil => simp [valsOk] at h
      | cons w ws =>
        simp only [valsOk, Bool.and_eq_true] at h
        simp [namesOf, ih ws h.2]
    | opt n => simp [valsOk] at h

/-! ## Decoding a full capture list -/

theorem setParam_not_mem : ∀ (acc : ParamObject) (k v : String),
    k ∉ acc.map Prod.fst → setParam acc k v = acc ++ [(k, v)] := by
  intro acc
  induction acc with
  | nil => intro k v _; rfl
  | cons p rest ih =>
    intro k v h
    obtain ⟨k', v'⟩ := p
    have hk : k' ≠ k := by
      intro he
      refine h ?_
      rw [← he]
      exact List.mem_map_of_mem Prod.fst (List.mem_cons_self _ rest)
    have hne : (k' == k) = false := by
      cases hb : k' == k with
      | false => rfl
      | true => exact absurd (eq_of_beq hb) hk
    show (if k' == k then (k, v) :: rest else (k', v') :: setParam rest k v) = _
    rw [hne]
    simp only [Bool.false_eq_true, if_false, List.cons_append, List.cons.injEq, true_and]
    refine ih k v fun hm => h ?_
    rw [List.map_cons]
    exact List.mem_cons_of_mem _ hm

theorem decodeGo_zip : ∀ (vals : List String) (names : List String) (i : Nat)
    (acc : ParamObject),
    (∀ v ∈ vals, decodeURIComponentM v = some v) →
    (names.drop i).length = vals.length →
    (names.drop i).Nodup →
    (∀ k ∈ names.drop i, k ∉ acc.map Prod.fst) →
    decodeGo names i acc (vals.map some) = some (acc ++ (names.drop i).zip vals) := by
  intro vals
  induction vals with
  | nil =>
    intro names i acc _ hlen _ _
    have hdrop : names.drop i = [] := List.length_eq_zero.mp hlen
    simp [decodeGo, hdrop]
  | cons v vs ih =>
    intro names i acc hdec hlen hnd hdisj
    obtain ⟨n, ns, hdrop⟩ : ∃ n ns, names.drop i = n :: ns := by
      cases hd : names.drop i with
      | nil => rw [hd] at hlen; simp at hlen
      | cons n ns => exact ⟨n, ns, rfl⟩
    have hget : names.get? i = some n := by
      rw [List.get?_eq_getElem?, ← List.head?_drop, hdrop]
      rfl
    have htail : names.drop (i + 1) = ns := by
      rw [← List.tail_drop, hdrop]
      rfl
    have hv : decodeURIComponentM v = some v := hdec v (List.mem_cons_self v vs)
    have hsp : setParam acc n v = acc ++ [(n, v)] :=
      setParam_not_mem acc n v (hdisj n (by rw [hdrop]; exact List.mem_cons_self n ns))
    show decodeGo names i acc (some v :: vs.map some) = _
    rw [show decodeGo names i acc (some v :: vs.map some) =
      (match decodeURIComponentM v with
       | some w => decodeGo names (i + 1) (setParam acc ((names.get? i).getD undefinedStr) w)
           (vs.map some)
       | none => none) from rfl]
    rw [hv, hget]
    have hnd' : ns.Nodup := by
      rw [hdrop] at hnd
      exact hnd.of_cons
    have hn_ns : n ∉ ns := by
      rw [hdrop] at hnd
      exact (List.nodup_cons.mp hnd).1
    have ihx := ih names (i + 1) (acc ++ [(n, v)])
      (fun w hw => hdec w (List.mem_cons_of_mem v hw))
      (by rw [htail]; simpa [hdrop] using hlen)
      (by rw [htail]; exact hnd')
      (by
        rw [htail]
        intro k hk hmem
        rw [List.map_append] at hmem
        rcases List.mem_append.mp hmem with hm | hm
        · exact hdisj k (by rw [hdrop]; exact List.mem_cons_of_mem n hk) hm
        · have : k = n := by simpa using hm
          exact hn_ns (this ▸ hk))
    show decodeGo names (i + 1) (setParam acc n v) (vs.map some) = _
    rw [hsp, ihx, hdrop, htail]
    simp [List.zip_cons_cons]

/-- `decodeParams` on fully decoded captures is the name-value zip. -/
theorem decodeParams_zip (names : List String) (vals : List String)
    (hdec : ∀ v ∈ vals, decodeURIComponentM v = some v)
    (hlen : names.length = vals.length) (hnd : names.Nodup) :
    decodeParams names (vals.map some) = some (names.zip vals) := by
  have := decodeGo_zip vals names 0 [] hdec (by simpa using hlen) (by simpa using hnd)
    (by simp)
  simpa [decodeParams] using this

/-! ## Compilation and parse on rendered templates -/

/-- On a rendered well-formed structural template, `compileRoute` is
normalization-free and produces exactly the structural tokens, names and
stored template. -/
theorem compileRoute_render (nm : String) (segs : List Seg) (hwf : wfSegs segs = true)
    (hne : segs ≠ []) :
    compileRoute nm (String.mk (render segs)) =
      { name := nm
        accept := fun s => (matchToks (toksOf segs) s.data).map (List.map some)
        decode := decodeParams (namesOf segs)
        template := some (String.mk (render segs)) } := by
  simp only [compileRoute]
  rw [normTemplate_id (render segs) ((render_nil_iff segs).not.mpr hne)
    (render_getLast segs hwf hne)]
  rw [show (String.mk (render segs)).data = render segs from rfl]
  rw [scan_render segs hwf]

/-- C4 (amended): round trip at the `parse` level — on an all-required
well-formed template with distinct parameter names and good values
(nonempty, free of `/` and `?`, and URL-decode fixed points, as forced
by the counterexample), compiling the template and parsing the
substituted path succeeds and the decoded params are exactly the
name-value zip. -/
theorem parse_render_roundTrip (nm : String) (segs : List Seg) (vals : List String)
    (hwf : wfSegs segs = true) (hne : segs ≠ [])
    (hok : valsOk segs vals = true) (hnd : (namesOf segs).Nodup) :
    parse [compileRoute nm (String.mk (render segs))] false none
        (String.mk (renderSub segs vals)) =
      (.ok (.page ⟨String.mk (renderSub segs vals), nm, (namesOf segs).zip vals⟩),
       some (String.mk (renderSub segs vals))) := by
  have hnorm : normalizePath false (String.mk (renderSub segs vals)) =
      String.mk (renderSub segs vals) :=
    normalizePath_id _ (renderSub_ne_nil segs vals hok hne)
      (renderSub_noQ segs vals hwf hok) (renderSub_getLast segs vals hwf hok hne)
  have haccept : (compileRoute nm (String.mk (render segs))).accept
      (String.mk (renderSub segs vals)) = some (vals.map some) := by
    rw [compileRoute_render nm segs hwf hne]
    show (matchToks (toksOf segs) (String.mk (renderSub segs vals)).data).map
      (List.map some) = _
    rw [show (String.mk (renderSub segs vals)).data = renderSub segs vals from rfl,
      matchToks_renderSub segs vals hok]
    rfl
  have hdecode : (compileRoute nm (String.mk (render segs))).decode (vals.map some) =
      some ((namesOf segs).zip vals) := by
    rw [compileRoute_render nm segs hwf hne]
    exact decodeParams_zip (namesOf segs) vals
      (fun v hv => goodVal_decode (valsOk_all_good segs vals hok v hv))
      (namesOf_length segs vals hok) hnd
  have hname : (compileRoute nm (String.mk (render segs))).name = nm := rfl
  have hscan : parseScan [compileRoute nm (String.mk (render segs))]
      (String.mk (renderSub segs vals)) =
      .ok (some ⟨String.mk (renderSub segs vals), nm, (namesOf segs).zip vals⟩) := by
    simp only [parseScan, haccept, hdecode, hname]
  simp only [parse, hnorm, hscan]
  rw [if_neg (show ¬(none : Option String) =
    some (String.mk (renderSub segs vals)) from by simp)]

/-! ## Templates with a trailing optional parameter -/

theorem render_append : ∀ a b : List Seg, render (a ++ b) = render a ++ render b := by
  intro a b
  induction a with
  | nil => rfl
  | cons seg rest ih => simp [render, ih]

theorem toksOf_append : ∀ a b : List Seg, toksOf (a ++ b) = toksOf a ++ toksOf b := by
  intro a b
  induction a with
  | nil => rfl
  | cons seg rest ih => simp [toksOf, ih]

theorem namesOf_append : ∀ a b : List Seg, namesOf (a ++ b) = namesOf a ++ namesOf b := by
  intro a b
  induction a with
  | nil => rfl
  | cons seg rest ih => cases seg <;> simp [namesOf, ih]

theorem toksOf_map_lit : ∀ ls : List String,
    toksOf (ls.map Seg.lit) = (render (ls.map Seg.lit)).map RTok.lit := by
  intro ls
  induction ls with
  | nil => rfl
  | cons s rest ih => simp [toksOf, toksOfSeg, render, renderSeg, ih]

theorem namesOf_map_lit : ∀ ls : List String, namesOf (ls.map Seg.lit) = [] := by
  intro ls
  induction ls with
  | nil => rfl
  | cons s rest ih => simpa [namesOf] using ih

theorem render_lits_noQ : ∀ ls : List String, wfSegs (ls.map Seg.lit) = true →
    ∀ c ∈ render (ls.map Seg.lit), c ≠ '?' := by
  intro ls
  induction ls with
  | nil => intro _ c hc; simp [render] at hc
  | cons s rest ih =>
    intro hwf c hc
    have hseg : wfLitStr s = true := by
      simp only [List.map_cons, wfSegs, List.all_cons, Bool.and_eq_true] at hwf
      exact hwf.1
    have hrest : wfSegs (rest.map Seg.lit) = true := by
      simp only [List.map_cons, wfSegs, List.all_cons, Bool.and_eq_true] at hwf
      exact hwf.2
    rcases List.mem_cons.mp hc with rfl | hc'
    · decide
    · rcases List.mem_append.mp hc' with hs | hr
      · exact (wfLit_chars hseg c hs).2.2.2
      · exact ih hrest c hr

/-- C3 (amended): for a template of literal segments followed by one
optional parameter `/:word?`, the path with the optional segment
omitted parses with the parameter key *present and bound to the empty
string* (the `([^/]*)` group participates with the empty match, and the
decoder writes `decodeURIComponent('')`), while the path with the
segment present parses with the key bound to the decoded segment. -/
theorem parse_optional (nm w : String) (pre : List String) (v : String)
    (hwf : wfSegs (pre.map Seg.lit) = true) (hw : wfName w = true) (hne : pre ≠ [])
    (hv : goodVal v = true) :
    parse [compileRoute nm (String.mk (render (pre.map Seg.lit ++ [Seg.opt w])))] false none
        (String.mk (render (pre.map Seg.lit))) =
      (.ok (.page ⟨String.mk (render (pre.map Seg.lit)), nm, [(w, String.mk [])]⟩),
       some (String.mk (render (pre.map Seg.lit)))) ∧
    parse [compileRoute nm (String.mk (render (pre.map Seg.lit ++ [Seg.opt w])))] false none
        (String.mk (render (pre.map Seg.lit) ++ '/' :: v.data)) =
      (.ok (.page ⟨String.mk (render (pre.map Seg.lit) ++ '/' :: v.data), nm, [(w, v)]⟩),
       some (String.mk (render (pre.map Seg.lit) ++ '/' :: v.data))) := by
  have hmapne : pre.map Seg.lit ≠ [] := by
    intro h
    exact hne (List.map_eq_nil_iff.mp h)
  have hwfall : wfSegs (pre.map Seg.lit ++ [Seg.opt w]) = true := by
    simp only [wfSegs, List.all_append, Bool.and_eq_true]
    exact ⟨hwf, by simpa [wfSeg] using hw⟩
  have hneall : pre.map Seg.lit ++ [Seg.opt w] ≠ [] := by
    simp
  have htoks : toksOf (pre.map Seg.lit ++ [Seg.opt w]) =
      (render (pre.map Seg.lit)).map RTok.lit ++ [RTok.optGroup] := by
    rw [toksOf_append, toksOf_map_lit]
    rfl
  have hnames : namesOf (pre.map Seg.lit ++ [Seg.opt w]) = [w] := by
    rw [namesOf_append, namesOf_map_lit]
    rfl
  have hcomp := compileRoute_render nm (pre.map Seg.lit ++ [Seg.opt w]) hwfall hneall
  have hLne : render (pre.map Seg.lit) ≠ [] := (render_nil_iff _).not.mpr hmapne
  have hLlast : (render (pre.map Seg.lit)).getLast? ≠ some '/' :=
    render_getLast _ hwf hmapne
  have hLnoQ : ∀ c ∈ render (pre.map Seg.lit), c ≠ '?' := render_lits_noQ pre hwf
  constructor
  · -- omitted case
    have hnorm : normalizePath false (String.mk (render (pre.map Seg.lit))) =
        String.mk (render (pre.map Seg.lit)) :=
      normalizePath_id _ hLne hLnoQ hLlast
    have hmatch : matchToks (toksOf (pre.map Seg.lit ++ [Seg.opt w]))
        (render (pre.map Seg.lit)) = some [String.mk []] := by
      rw [htoks]
      have := matchToks_lit_self (render (pre.map Seg.lit)) [RTok.optGroup]
        ([] : List Char)
      rw [List.append_nil] at this
      rw [this]
      rfl
    have haccept : (compileRoute nm
        (String.mk (render (pre.map Seg.lit ++ [Seg.opt w])))).accept
        (String.mk (render (pre.map Seg.lit))) = some [some (String.mk [])] := by
      rw [hcomp]
      show (matchToks _ (String.mk (render (pre.map Seg.lit))).data).map _ = _
      rw [show (String.mk (render (pre.map Seg.lit))).data =
        render (pre.map Seg.lit) from rfl, hmatch]
      rfl
    have hdecode : (compileRoute nm
        (String.mk (render (pre.map Seg.lit ++ [Seg.opt w])))).decode
        [some (String.mk [])] = some [(w, String.mk [])] := by
      rw [hcomp, hnames]
      have := decodeParams_zip [w] [String.mk []]
        (by intro x hx; rw [List.mem_singleton.mp hx]; rfl) rfl (by simp)
      simpa using this
    have hscan : parseScan [compileRoute nm
        (String.mk (render (pre.map Seg.lit ++ [Seg.opt w])))]
        (String.mk (render (pre.map Seg.lit))) =
        .ok (some ⟨String.mk (render (pre.map Seg.lit)), nm, [(w, String.mk [])]⟩) := by
      simp only [parseScan, haccept, hdecode]
      rfl
    simp only [parse, hnorm, hscan]
    rw [if_neg (show ¬(none : Option String) =
      some (String.mk (render (pre.map Seg.lit))) from by simp)]
  · -- present case
    have hpne : render (pre.map Seg.lit) ++ '/' :: v.data ≠ [] := by
      simp
    have hpnoQ : ∀ c ∈ render (pre.map Seg.lit) ++ '/' :: v.data, c ≠ '?' := by
      intro c hc
      rcases List.mem_append.mp hc with hl | hr
      · exact hLnoQ c hl
      · rcases List.mem_cons.mp hr with rfl | hv'
        · decide
        · exact goodVal_noQ hv c hv'
    have hplast : (render (pre.map Seg.lit) ++ '/' :: v.data).getLast? ≠ some '/' := by
      rw [List.getLast?_append_of_ne_nil _ (List.cons_ne_nil _ _)]
      obtain ⟨c, cs, hdata⟩ : ∃ c cs, v.data = c :: cs := by
        cases hd : v.data with
        | nil => exact absurd hd (goodVal_ne_nil hv)
        | cons c cs => exact ⟨c, cs, rfl⟩
      rw [hdata, List.getLast?_cons_cons]
      exact getLast?_ne_of_all
        (fun x hx => goodVal_noSlash hv x (by rw [hdata]; exact hx))
        (List.cons_ne_nil c cs)
    have hnorm : normalizePath false (String.mk (render (pre.map Seg.lit) ++ '/' :: v.data)) =
        String.mk (render (pre.map Seg.lit) ++ '/' :: v.data) :=
      normalizePath_id _ hpne hpnoQ hplast
    have hallv : v.data.all (fun c => c != '/') = true := by
      apply List.all_eq_true.mpr
      intro c hc
      simpa using goodVal_noSlash hv c hc
    have hmatch : matchToks (toksOf (pre.map Seg.lit ++ [Seg.opt w]))
        (render (pre.map Seg.lit) ++ '/' :: v.data) = some [v] := by
      rw [htoks, matchToks_lit_self (render (pre.map Seg.lit)) [RTok.optGroup]
        ('/' :: v.data), matchToks_opt_end_slash, if_pos hallv, string_mk_data]
    have haccept : (compileRoute nm
        (String.mk (render (pre.map Seg.lit ++ [Seg.opt w])))).accept
        (String.mk (render (pre.map Seg.lit) ++ '/' :: v.data)) = some [some v] := by
      rw [hcomp]
      show (matchToks _ (String.mk (render (pre.map Seg.lit) ++ '/' :: v.data)).data).map _ = _
      rw [show (String.mk (render (pre.map Seg.lit) ++ '/' :: v.data)).data =
        render (pre.map Seg.lit) ++ '/' :: v.data from rfl, hmatch]
      rfl
    have hdecode : (compileRoute nm
        (String.mk (render (pre.map Seg.lit ++ [Seg.opt w])))).decode
        [some v] = some [(w, v)] := by
      rw [hcomp, hnames]
      have := decodeParams_zip [w] [v]
        (by intro x hx; rw [List.mem_singleton.mp hx]; exact goodVal_decode hv) rfl (by simp)
      simpa using this
    have hscan : parseScan [compileRoute nm
        (String.mk (render (pre.map Seg.lit ++ [Seg.opt w])))]
        (String.mk (render (pre.map Seg.lit) ++ '/' :: v.data)) =
        .ok (some ⟨String.mk (render (pre.map Seg.lit) ++ '/' :: v.data), nm, [(w, v)]⟩) := by
      simp only [parseScan, haccept, hdecode]
      rfl
    simp only [parse, hnorm, hscan]
    rw [if_neg (show ¬(none : Option String) =
      some (String.mk (render (pre.map Seg.lit) ++ '/' :: v.data)) from by simp)]

/-! ## Full acceptance characterization of a trailing optional group -/

/-- A literal token block consumes exactly a case-insensitive copy of its
text, whatever the input. -/
theorem matchToks_lit_ci : ∀ (cs : List Char) (ts : List RTok) (ds : List Char),
    matchToks (cs.map RTok.lit ++ ts) ds =
      if cs.length ≤ ds.length ∧
          (ds.take cs.length).map Char.toLower = cs.map Char.toLower
      then matchToks ts (ds.drop cs.length) else none := by
  intro cs
  induction cs with
  | nil => intro ts ds; simp
  | cons c cs ih =>
    intro ts ds
    cases ds with
    | nil =>
      rw [if_neg (by simp)]
      rfl
    | cons d ds' =>
      show (if ciEq c d then matchToks (cs.map RTok.lit ++ ts) ds' else none) = _
      have hcond : ((c :: cs).length ≤ (d :: ds').length ∧
          ((d :: ds').take (c :: cs).length).map Char.toLower =
            (c :: cs).map Char.toLower) ↔
          (c.toLower = d.toLower ∧ cs.length ≤ ds'.length ∧
            (ds'.take cs.length).map Char.toLower = cs.map Char.toLower) := by
        simp only [List.length_cons, Nat.succ_le_succ_iff, List.take_succ_cons,
          List.map_cons, List.cons.injEq]
        constructor
        · rintro ⟨h1, h2, h3⟩
          exact ⟨h2.symm, h1, h3⟩
        · rintro ⟨h1, h2, h3⟩
          exact ⟨h2, h1.symm, h3⟩
      by_cases hcd : c.toLower = d.toLower
      · have hci : ciEq c d = true := by
          simp [ciEq, hcd]
        rw [if_pos hci, ih ts ds']
        by_cases h2 : cs.length ≤ ds'.length ∧
            (ds'.take cs.length).map Char.toLower = cs.map Char.toLower
        · rw [if_pos h2, if_pos (hcond.mpr ⟨hcd, h2⟩)]
          rfl
        · rw [if_neg h2, if_neg fun hh => h2 (hcond.mp hh).2]
      · have hci : ¬ciEq c d = true := by
          simp only [ciEq, beq_iff_eq]
          exact hcd
        rw [if_neg hci, if_neg fun hh => hcd (hcond.mp hh).1]

theorem optTailMatch_slash (rest : List Char) :
    optTailMatch ('/' :: rest) =
      if rest.all (fun c => c != '/') then some [some (String.mk rest)] else none := rfl

theorem optTailMatch_ne (d : Char) (rest : List Char) (hd : d ≠ '/') :
    optTailMatch (d :: rest) =
      if (d :: rest).all (fun c => c != '/') then some [some (String.mk (d :: rest))]
      else none := by
  unfold optTailMatch
  split
  · next rest' heq =>
    injection heq with h1 _
    exact absurd h1 hd
  · rfl

theorem optTailMatch_nil : optTailMatch [] = some [some (String.mk [])] := rfl

/-- C5 (amended): full acceptance characterization of the compiled
pattern for a template with a trailing optional parameter — it accepts
exactly the strings made of a case-insensitive copy of the literal part
followed by an optional `/` and a possibly empty run of non-`/`
characters, which is the capture.  In particular a nonempty run *not*
preceded by `/`, and `/` followed by the empty run, are also accepted,
not just `/`+nonempty-segment or nothing as the claim stated. -/
theorem accept_optional_charact (nm w : String) (pre : List String) (s : String)
    (hwf : wfSegs (pre.map Seg.lit) = true) (hw : wfName w = true) :
    (compileRoute nm (String.mk (render (pre.map Seg.lit ++ [Seg.opt w])))).accept s =
      (if (render (pre.map Seg.lit)).length ≤ s.data.length ∧
          (s.data.take (render (pre.map Seg.lit)).length).map Char.toLower =
            (render (pre.map Seg.lit)).map Char.toLower
       then optTailMatch (s.data.drop (render (pre.map Seg.lit)).length)
       else none) := by
  have hwfall : wfSegs (pre.map Seg.lit ++ [Seg.opt w]) = true := by
    simp only [wfSegs, List.all_append, Bool.and_eq_true]
    exact ⟨hwf, by simpa [wfSeg] using hw⟩
  have hneall : pre.map Seg.lit ++ [Seg.opt w] ≠ [] := by
    simp
  have htoks : toksOf (pre.map Seg.lit ++ [Seg.opt w]) =
      (render (pre.map Seg.lit)).map RTok.lit ++ [RTok.optGroup] := by
    rw [toksOf_append, toksOf_map_lit]
    rfl
  rw [compileRoute_render nm _ hwfall hneall]
  show (matchToks (toksOf (pre.map Seg.lit ++ [Seg.opt w])) s.data).map (List.map some) = _
  rw [htoks, matchToks_lit_ci]
  by_cases hcond : (render (pre.map Seg.lit)).length ≤ s.data.length ∧
      (s.data.take (render (pre.map Seg.lit)).length).map Char.toLower =
        (render (pre.map Seg.lit)).map Char.toLower
  · rw [if_pos hcond, if_pos hcond]
    cases hd : s.data.drop (render (pre.map Seg.lit)).length with
    | nil =>
      rw [matchToks_opt_end_other [] (fun t => List.noConfusion), optTailMatch_nil]
      simp
    | cons d rest =>
      by_cases hslash : d = '/'
      · subst hslash
        rw [matchToks_opt_end_slash, optTailMatch_slash]
        by_cases hall : rest.all (fun c => c != '/') = true
        · rw [if_pos hall, if_pos hall]
          rfl
        · rw [if_neg hall, if_neg hall]
          rfl
      · have hhead : ∀ t, d :: rest ≠ '/' :: t := by
          intro t hc
          injection hc with h1 _
          exact hslash h1
        rw [matchToks_opt_end_other (d :: rest) hhead, optTailMatch_ne d rest hslash]
        by_cases hall : (d :: rest).all (fun c => c != '/') = true
        · rw [if_pos hall, if_pos hall]
          rfl
        · rw [if_neg hall, if_neg hall]
          rfl
  · rw [if_neg hcond, if_neg hcond]
    rfl

/-! ## Control flow of `parse` and `open` -/

/-- The memo after `parse` is always the normalized path, whatever the
match outcome (it is written before the scan, and on the short-circuit
it already holds that value). -/
theorem parse_snd (rs : List Route) (search : Bool) (prev : Option String) (path : String) :
    (parse rs search prev path).2 = some (normalizePath search path) := by
  simp only [parse]
  by_cases h : prev = some (normalizePath search path)
  · rw [if_pos h]
    exact h
  · rw [if_neg h]
    cases hs : parseScan rs (normalizePath search path) with
    | ok op => cases op <;> simp
    | error e => simp

/-- With the memo already equal to the normalized path, `parse` returns
the `false` sentinel and leaves everything untouched. -/
theorem parse_unchanged_of_prev (rs : List Route) (search : Bool) (prev : Option String)
    (path : String) (h : prev = some (normalizePath search path)) :
    parse rs search prev path = (.ok .unchanged, prev) := by
  simp [parse, h]

/-- `parse` reports the sentinel exactly when the memo matched. -/
theorem parse_unchanged_iff (rs : List Route) (search : Bool) (prev : Option String)
    (path : String) :
    (parse rs search prev path).1 = .ok .unchanged ↔
      prev = some (normalizePath search path) := by
  by_cases h : prev = some (normalizePath search path)
  · rw [parse_unchanged_of_prev rs search prev path h]
    simp [h]
  · simp only [parse, if_neg h]
    cases hs : parseScan rs (normalizePath search path) with
    | ok op => cases op <;> simp [h]
    | error e => simp [h]

/-- C2 (amended): `open` is a no-op exactly when `parse` returns the
`false` de-duplication sentinel; when `parse` returns `undefined` (no
route matched) `open` still pushes (or replaces) the path in history
and writes `undefined` into the store — `page !== false` does not
exclude `undefined` — and on a real page it pushes and writes the
page. -/
theorem open_transitions (rs : List Route) (search : Bool) (st : RouterSt) (path : String)
    (r : Bool) :
    ((parse rs search st.prev path).1 = .ok .unchanged →
      openRun rs search st path r = .ok st) ∧
    ((parse rs search st.prev path).1 = .ok .noMatch →
      openRun rs search st path r =
        .ok ⟨some (normalizePath search path), some none, st.history ++ [(r, path)]⟩) ∧
    (∀ pg, (parse rs search st.prev path).1 = .ok (.page pg) →
      openRun rs search st path r =
        .ok ⟨some (normalizePath search path), some (some pg), st.history ++ [(r, path)]⟩) := by
  refine ⟨?_, ?_, ?_⟩
  · intro h
    have hprev : st.prev = some (normalizePath search path) :=
      (parse_unchanged_iff rs search st.prev path).mp h
    have hp := parse_unchanged_of_prev rs search st.prev path hprev
    simp [openRun, hp]
  · intro h
    have hp : parse rs search st.prev path =
        (.ok .noMatch, some (normalizePath search path)) := by
      have e : parse rs search st.prev path =
          ((parse rs search st.prev path).1, (parse rs search st.prev path).2) := rfl
      rw [e, h, parse_snd]
    simp [openRun, hp]
  · intro pg h
    have hp : parse rs search st.prev path =
        (.ok (.page pg), some (normalizePath search path)) := by
      have e : parse rs search st.prev path =
          ((parse rs search st.prev path).1, (parse rs search st.prev path).2) := rfl
      rw [e, h, parse_snd]
    simp [openRun, hp]

/-- The scan underlying first-declared-wins: if everything before index
`i` rejects and entry `i` accepts and decodes, the scan stops at `i`. -/
theorem parseScan_first : ∀ (rs : List Route) (np : String) (i : Nat) (hi : i < rs.length)
    (ms : List (Option String)) (ps : ParamObject),
    (∀ j (hj : j < i), (rs.get ⟨j, Nat.lt_trans hj hi⟩).accept np = none) →
    (rs.get ⟨i, hi⟩).accept np = some ms →
    (rs.get ⟨i, hi⟩).decode ms = some ps →
    parseScan rs np = .ok (some ⟨np, (rs.get ⟨i, hi⟩).name, ps⟩) := by
  intro rs
  induction rs with
  | nil =>
    intro np i hi
    exact absurd hi (Nat.not_lt_zero i)
  | cons r rest ih =>
    intro np i hi ms ps hbefore hacc hdec
    cases i with
    | zero =>
      have hr : (r :: rest).get ⟨0, hi⟩ = r := rfl
      rw [hr] at hacc hdec ⊢
      show (match r.accept np with
        | some ms =>
          match r.decode ms with
          | some ps => Except.ok (some (Page.mk np r.name ps))
          | none => Except.error ()
        | none => parseScan rest np) = _
      rw [hacc]
      show (match r.decode ms with
        | some ps => Except.ok (some (Page.mk np r.name ps))
        | none => Except.error ()) = _
      rw [hdec]
    | succ i' =>
      have hr0 : r.accept np = none := hbefore 0 (Nat.succ_pos i')
      have hi' : i' < rest.length := Nat.lt_of_succ_lt_succ hi
      have hstep : (r :: rest).get ⟨i' + 1, hi⟩ = rest.get ⟨i', hi'⟩ := rfl
      rw [hstep] at hacc hdec ⊢
      show (match r.accept np with
        | some ms =>
          match r.decode ms with
          | some ps => Except.ok (some (Page.mk np r.name ps))
          | none => Except.error ()
        | none => parseScan rest np) = _
      rw [hr0]
      exact ih np i' hi' ms ps
        (fun j hj => hbefore (j + 1) (Nat.succ_lt_succ hj)) hacc hdec

/-- C8: first-declared-wins — with the memo not short-circuiting, if
every table entry before index `i` rejects the normalized path and
entry `i`'s pattern accepts it and its decoder succeeds, `parse`
returns entry `i`'s name and decoded params; the scan is in declaration
order with no specificity scoring. -/
theorem parse_first_wins (rs : List Route) (search : Bool) (prev : Option String)
    (path : String) (i : Nat) (hi : i < rs.length) (ms : List (Option String))
    (ps : ParamObject)
    (hprev : prev ≠ some (normalizePath search path))
    (hbefore : ∀ j (hj : j < i),
      (rs.get ⟨j, Nat.lt_trans hj hi⟩).accept (normalizePath search path) = none)
    (hacc : (rs.get ⟨i, hi⟩).accept (normalizePath search path) = some ms)
    (hdec : (rs.get ⟨i, hi⟩).decode ms = some ps) :
    parse rs search prev path =
      (.ok (.page ⟨normalizePath search path, (rs.get ⟨i, hi⟩).name, ps⟩),
       some (normalizePath search path)) := by
  have hscan := parseScan_first rs (normalizePath search path) i hi ms ps hbefore hacc hdec
  simp [parse, if_neg hprev, hscan]

/-- C9: idempotence of `open` — after a successful `open`, a second
`open` with a path normalizing to the same string is the identity on
the router state: the second call receives the `false` sentinel from
`parse` and performs neither a store write nor a history mutation. -/
theorem open_idempotent (rs : List Route) (search : Bool) (st : RouterSt)
    (p1 p2 : String) (r1 r2 : Bool) (st' : RouterSt)
    (hnorm : normalizePath search p1 = normalizePath search p2)
    (h : openRun rs search st p1 r1 = .ok st') :
    openRun rs search st' p2 r2 = .ok st' := by
  have hprev : st'.prev = some (normalizePath search p1) := by
    have hsnd := parse_snd rs search st.prev p1
    unfold openRun at h
    rcases hp : parse rs search st.prev p1 with ⟨res, p'⟩
    rw [hp] at h hsnd
    cases res with
    | ok pr =>
      cases pr with
      | unchanged =>
        have : st' = { st with prev := p' } := by
          cases h
          rfl
        rw [this]
        exact hsnd
      | noMatch =>
        have : st' = ⟨p', some none, st.history ++ [(r1, p1)]⟩ := by
          cases h
          rfl
        rw [this]
        exact hsnd
      | page pg =>
        have : st' = ⟨p', some (some pg), st.history ++ [(r1, p1)]⟩ := by
          cases h
          rfl
        rw [this]
        exact hsnd
    | error e => cases h
  have hp2 : parse rs search st'.prev p2 = (.ok .unchanged, st'.prev) :=
    parse_unchanged_of_prev rs search st'.prev p2 (by rw [hprev, hnorm])
  simp [openRun, hp2]

/-- C10: the de-duplication memo is updated by every `parse` call
regardless of the match outcome; an immediately following `parse` of
the same path returns the `false` sentinel, and a subsequent `open` of
that path from any state carrying the memo performs no history mutation
and no store write. -/
theorem parse_memo (rs : List Route) (search : Bool) (prev : Option String) (path : String)
    (res : Except Unit ParseRes) (p' : Option String)
    (h : parse rs search prev path = (res, p')) :
    p' = some (normalizePath search path) ∧
    parse rs search p' path = (.ok .unchanged, p') ∧
    (∀ (st : RouterSt) (r : Bool), st.prev = p' → openRun rs search st path r = .ok st) := by
  have h2 : p' = some (normalizePath search path) := by
    have := parse_snd rs search prev path
    rw [h] at this
    exact this
  refine ⟨h2, parse_unchanged_of_prev rs search p' path h2, ?_⟩
  intro st r hst
  have hp := parse_unchanged_of_prev rs search st.prev path (by rw [hst, h2])
  simp [openRun, hp]

/-! ## Where `parse` can throw -/

/-- The scan throws only when some route's pattern matched and its
decoder threw. -/
theorem parseScan_error : ∀ (rs : List Route) (np : String),
    parseScan rs np = .error () →
    ∃ r ∈ rs, ∃ ms, r.accept np = some ms ∧ r.decode ms = none := by
  intro rs
  induction rs with
  | nil =>
    intro np h
    exact absurd h (by simp [parseScan])
  | cons r rest ih =>
    intro np h
    cases hacc : r.accept np with
    | some ms =>
      cases hdec : r.decode ms with
      | some ps =>
        have : parseScan (r :: rest) np = .ok (some (Page.mk np r.name ps)) := by
          show (match r.accept np with
            | some ms =>
              match r.decode ms with
              | some ps => Except.ok (some (Page.mk np r.name ps))
              | none => Except.error ()
            | none => parseScan rest np) = _
          rw [hacc]
          show (match r.decode ms with
            | some ps => Except.ok (some (Page.mk np r.name ps))
            | none => Except.error ()) = _
          rw [hdec]
        rw [this] at h
        exact absurd h (by simp)
      | none =>
        exact ⟨r, List.mem_cons_self r rest, ms, hacc, hdec⟩
    | none =>
      have htail : parseScan (r :: rest) np = parseScan rest np := by
        show (match r.accept np with
          | some ms =>
            match r.decode ms with
            | some ps => Except.ok (some (Page.mk np r.name ps))
            | none => Except.error ()
          | none => parseScan rest np) = _
        rw [hacc]
      rw [htail] at h
      obtain ⟨r', hmem, ms, h1, h2⟩ := ih np h
      exact ⟨r', List.mem_cons_of_mem r hmem, ms, h1, h2⟩

/-- A template route's decoder throws only because `decodeURIComponent`
rejected one of the captured strings. -/
theorem decodeParams_error : ∀ (ms : List (Option String)) (names : List String) (i : Nat)
    (acc : ParamObject), decodeGo names i acc ms = none →
    ∃ s, some s ∈ ms ∧ decodeURIComponentM s = none := by
  intro ms
  induction ms with
  | nil =>
    intro names i acc h
    exact absurd h (by simp [decodeGo])
  | cons m rest ih =>
    intro names i acc h
    cases m with
    | some s =>
      cases hdec : decodeURIComponentM s with
      | some v =>
        have hstep : decodeGo names i acc (some s :: rest) =
            decodeGo names (i + 1) (setParam acc ((names.get? i).getD undefinedStr) v)
              rest := by
          show (match decodeURIComponentM s with
            | some w => decodeGo names (i + 1)
                (setParam acc ((names.get? i).getD undefinedStr) w) rest
            | none => none) = _
          rw [hdec]
        rw [hstep] at h
        obtain ⟨s', hmem, hfail⟩ := ih names (i + 1) _ h
        exact ⟨s', List.mem_cons_of_mem _ hmem, hfail⟩
      | none =>
        exact ⟨s, List.mem_cons_self _ _, hdec⟩
    | none =>
      have hstep : decodeGo names i acc (none :: rest) =
          decodeGo names (i + 1) (setParam acc ((names.get? i).getD undefinedStr)
            undefinedStr) rest := rfl
      rw [hstep] at h
      obtain ⟨s', hmem, hfail⟩ := ih names (i + 1) _ h
      exact ⟨s', List.mem_cons_of_mem _ hmem, hfail⟩

/-- C6 (amended): over a table built only from template strings,
`parse` is total except for `decodeURIComponent`: if it throws, some
route's pattern matched the normalized path and one of the captured
segments is rejected by `decodeURIComponent` (a malformed
percent-encoding); no-match is the `undefined` value and duplicates the
sentinel, without exceptions. -/
theorem parse_error_malformed (cfg : List (String × String)) (search : Bool)
    (prev : Option String) (path : String)
    (h : (parse (cfg.map fun p => compileRoute p.1 p.2) search prev path).1 = .error ()) :
    ∃ nm t, (nm, t) ∈ cfg ∧ ∃ ms,
      (compileRoute nm t).accept (normalizePath search path) = some ms ∧
      ∃ s, some s ∈ ms ∧ decodeURIComponentM s = none := by
  have hscan : parseScan (cfg.map fun p => compileRoute p.1 p.2)
      (normalizePath search path) = .error () := by
    by_cases hprev : prev = some (normalizePath search path)
    · rw [parse_unchanged_of_prev _ search prev path hprev] at h
      exact absurd h (by simp)
    · revert h
      simp only [parse, if_neg hprev]
      cases hs : parseScan (cfg.map fun p => compileRoute p.1 p.2)
          (normalizePath search path) with
      | ok op =>
        cases op <;> intro h <;> exact absurd h (by simp)
      | error e =>
        intro _
        rfl
  obtain ⟨r, hmem, ms, hacc, hdec⟩ := parseScan_error _ _ hscan
  obtain ⟨p, hp, hr⟩ := List.mem_map.mp hmem
  refine ⟨p.1, p.2, hp, ms, by rw [hr]; exact hacc, ?_⟩
  rw [← hr] at hdec
  have : (compileRoute p.1 p.2).decode ms =
      decodeParams (scanGo .top (normTemplate p.2).data).2 ms := rfl
  rw [this] at hdec
  exact decodeParams_error ms _ 0 [] hdec

/-! ## `getPagePath` without a template -/

/-- C7 (amended): for a route without a template (a custom-matcher
route) — or no route at all — `getPagePath` throws only when
`process.env.NODE_ENV !== 'production'`; in production builds the throw
is skipped and it silently returns `/`.  The failure therefore does
depend on external configuration, contrary to the claim. -/
theorem getPagePath_no_template (rs : List Route) (name : String) (args : List ParamObject)
    (h : (rs.find? fun r => r.name == name).bind (fun r => r.template) = none) :
    getPagePathRun rs true name args = .error () ∧
    getPagePathRun rs false name args = .ok (String.mk ['/']) := by
  constructor
  · simp [getPagePathRun, h]
    decide
  · simp [getPagePathRun, h]
    decide

/-! ## Concrete evaluations: counterexamples and the C1 bug -/

/-- C1: evaluation of the code at the documented input.  The source's
own doc comment promises `/posts/guides/10` for
`getPagePath(router, 'post', { categoryId: 'guides', id: '10' })`, but
the function receives the parameter object inside a rest-argument
array and indexes that array with the parameter names, so every lookup
is `undefined` and the result is `/posts/undefined/undefined` (in
development mode just as in production). -/
theorem c1_getPagePath_rest_array_bug :
    getPagePathRun exampleTable true (r"post")
        [[((r"categoryId"), (r"guides")), ((r"id"), (r"10"))]] =
      .ok (r"/posts/undefined/undefined") ∧
    (r"/posts/undefined/undefined") ≠ (r"/posts/guides/10") := by
  decide

/-- C2 counterexample: opening an unmatched path from a fresh store
appends a `pushState` entry and writes `undefined` into the store —
history and state are mutated although `parse` returned `undefined`. -/
theorem c2_counterexample :
    (openRun exampleTable false ⟨none, none, []⟩ (r"/nope") false).map
        (fun st => st.history) = .ok [(false, (r"/nope"))] ∧
    ([(false, (r"/nope"))] : List (Bool × String)) ≠ [] ∧
    (openRun exampleTable false ⟨none, none, []⟩ (r"/nope") false).map
        (fun st => st.value) = .ok (some none) := by
  decide

/-- C3 counterexample: for template `/posts/:tag?`, `parse('/posts')`
yields `params = ⟨tag ↦ empty string⟩`, not the empty mapping the claim
requires — the key is present. -/
theorem c3_counterexample :
    (parse [compileRoute (r"posts") (r"/posts/:tag?")] false none (r"/posts")).1 =
      .ok (.page ⟨(r"/posts"), (r"posts"), [((r"tag"), (r""))]⟩) ∧
    ([((r"tag"), (r""))] : ParamObject) ≠ [] := by
  decide

/-- C4 counterexample: substituting the non-`/` string `%41` for the
`id` parameter of `/posts/:id` and matching the built path yields
`id ↦ A` (the URL-decoded text), not the original `%41`: the round
trip fails for arbitrary non-`/` strings. -/
theorem c4_counterexample :
    (parse [compileRoute (r"r") (r"/posts/:id")] false none (r"/posts/%41")).1 =
      .ok (.page ⟨(r"/posts/%41"), (r"r"), [((r"id"), (r"A"))]⟩) ∧
    (r"A") ≠ (r"%41") := by
  decide

/-- C5 counterexample: the pattern compiled from `/posts/:tag?` is
`^/posts/?([^/]*)$`; it accepts `/postsx` (optional segment present
*without* its `/`, captured as `x`) and `/posts/` (a `/` with an empty
capture) — shapes the claim excludes. -/
theorem c5_counterexample :
    (compileRoute (r"posts") (r"/posts/:tag?")).accept (r"/postsx") =
      some [some (r"x")] ∧
    (compileRoute (r"posts") (r"/posts/:tag?")).accept (r"/posts/") =
      some [some (r"")] := by
  decide

/-- C6 counterexample: parsing `/%` against the route `/:id` captures
`%`, and `decodeURIComponent('%')` throws `URIError` — the exception
escapes `parse`, so `parse` is not exception-free. -/
theorem c6_counterexample :
    (parse [compileRoute (r"r") (r"/:id")] false none (r"/%")).1 = .error () := by
  decide

/-- C7 counterexample: with `NODE_ENV = 'production'` (the guard
disabled), `getPagePath` on a custom-matcher route does not fail at
all: it returns `/` — the fatal failure exists only under the external
`NODE_ENV` configuration. -/
theorem c7_counterexample :
    getPagePathRun [customRoute] false (r"api") [] = .ok (r"/") := by
  decide

/-! ## Witnesses -/

/-- Witness for C2: the no-match branch of the amended theorem at the
concrete unmatched path `/nope`. -/
theorem c2_witness :
    openRun exampleTable false ⟨none, none, []⟩ (r"/nope") false =
      .ok ⟨some (r"/nope"), some none, [(false, (r"/nope"))]⟩ :=
  (open_transitions exampleTable false ⟨none, none, []⟩ (r"/nope") false).2.1 (by decide)

/-- Witness for C3: template `/posts/:tag?`; `parse('/posts')` binds
`tag` to the empty string and `parse('/posts/news')` binds it to
`news`. -/
theorem c3_witness :
    parse [compileRoute (r"posts")
        (String.mk (render ([(r"posts")].map Seg.lit ++ [Seg.opt (r"tag")])))] false none
        (String.mk (render ([(r"posts")].map Seg.lit))) =
      (.ok (.page ⟨String.mk (render ([(r"posts")].map Seg.lit)), (r"posts"),
        [((r"tag"), String.mk [])]⟩),
       some (String.mk (render ([(r"posts")].map Seg.lit)))) ∧
    parse [compileRoute (r"posts")
        (String.mk (render ([(r"posts")].map Seg.lit ++ [Seg.opt (r"tag")])))] false none
        (String.mk (render ([(r"posts")].map Seg.lit) ++ '/' :: (r"news").data)) =
      (.ok (.page ⟨String.mk (render ([(r"posts")].map Seg.lit) ++ '/' :: (r"news").data),
        (r"posts"), [((r"tag"), (r"news"))]⟩),
       some (String.mk (render ([(r"posts")].map Seg.lit) ++ '/' :: (r"news").data))) :=
  parse_optional (r"posts") (r"tag") [(r"posts")] (r"news")
    (by decide) (by decide) (by decide) (by decide)

/-- Witness for C4: the spec's example route `/posts/:categoryId/:id`
with values `guides` and `10` round-trips to
`params = ⟨categoryId ↦ guides, id ↦ 10⟩`. -/
theorem c4_witness :
    parse [compileRoute (r"post")
        (String.mk (render [Seg.lit (r"posts"), Seg.req (r"categoryId"), Seg.req (r"id")]))]
        false none
        (String.mk (renderSub [Seg.lit (r"posts"), Seg.req (r"categoryId"), Seg.req (r"id")]
          [(r"guides"), (r"10")])) =
      (.ok (.page ⟨String.mk (renderSub
          [Seg.lit (r"posts"), Seg.req (r"categoryId"), Seg.req (r"id")]
          [(r"guides"), (r"10")]), (r"post"),
        (namesOf [Seg.lit (r"posts"), Seg.req (r"categoryId"), Seg.req (r"id")]).zip
          [(r"guides"), (r"10")]⟩),
       some (String.mk (renderSub
          [Seg.lit (r"posts"), Seg.req (r"categoryId"), Seg.req (r"id")]
          [(r"guides"), (r"10")]))) :=
  parse_render_roundTrip (r"post")
    [Seg.lit (r"posts"), Seg.req (r"categoryId"), Seg.req (r"id")]
    [(r"guides"), (r"10")] (by decide) (List.cons_ne_nil _ _) (by decide) (by decide)

/-- Witness for C5: the characterization applied to `/postsx` shows the
compiled `/posts/:tag?` pattern accepting it with capture `x`. -/
theorem c5_witness :
    (compileRoute (r"posts")
        (String.mk (render ([(r"posts")].map Seg.lit ++ [Seg.opt (r"tag")])))).accept
        (r"/postsx") =
      (if (render ([(r"posts")].map Seg.lit)).length ≤ (r"/postsx").data.length ∧
          ((r"/postsx").data.take (render ([(r"posts")].map Seg.lit)).length).map
            Char.toLower = (render ([(r"posts")].map Seg.lit)).map Char.toLower
       then optTailMatch ((r"/postsx").data.drop (render ([(r"posts")].map Seg.lit)).length)
       else none) :=
  accept_optional_charact (r"posts") (r"tag") [(r"posts")] (r"/postsx")
    (by decide) (by decide)

/-- Witness for C6: the `/%` error instance produces the promised
malformed capture. -/
theorem c6_witness :
    ∃ nm t, (nm, t) ∈ [((r"r"), (r"/:id"))] ∧ ∃ ms,
      (compileRoute nm t).accept (normalizePath false (r"/%")) = some ms ∧
      ∃ s, some s ∈ ms ∧ decodeURIComponentM s = none :=
  parse_error_malformed [((r"r"), (r"/:id"))] false none (r"/%") (by decide)

/-- Witness for C7: the custom route throws in development mode and
returns `/` in production. -/
theorem c7_witness :
    getPagePathRun [customRoute] true (r"api") [] = .error () ∧
    getPagePathRun [customRoute] false (r"api") [] = .ok (String.mk ['/']) :=
  getPagePath_no_template [customRoute] (r"api") [] (by decide)

/-- Witness for C8: `/posts/special` is accepted by both entries of
`overlapTable`; `parse` returns the first-declared `category` route
with `categoryId ↦ special`, and the second entry indeed accepts
too. -/
theorem c8_witness :
    parse overlapTable false none (r"/posts/special") =
      (.ok (.page ⟨(r"/posts/special"), (r"category"),
        [((r"categoryId"), (r"special"))]⟩),
       some (r"/posts/special")) ∧
    (overlapTable.get ⟨1, by decide⟩).accept (r"/posts/special") = some [] := by
  refine ⟨?_, by decide⟩
  exact parse_first_wins overlapTable false none (r"/posts/special") 0 (by decide)
    [some (r"special")] [((r"categoryId"), (r"special"))] (by decide)
    (fun j hj => absurd hj (Nat.not_lt_zero j)) (by decide) (by decide)

/-- Witness for C9: opening `/posts/guides/10` twice from a fresh
store performs exactly one transition — the second call returns the
state of the first unchanged. -/
theorem c9_witness :
    openRun exampleTable false
        ⟨some (r"/posts/guides/10"),
         some (some ⟨(r"/posts/guides/10"), (r"post"),
           [((r"categoryId"), (r"guides")), ((r"id"), (r"10"))]⟩),
         [(false, (r"/posts/guides/10"))]⟩ (r"/posts/guides/10") false =
      .ok ⟨some (r"/posts/guides/10"),
        some (some ⟨(r"/posts/guides/10"), (r"post"),
          [((r"categoryId"), (r"guides")), ((r"id"), (r"10"))]⟩),
        [(false, (r"/posts/guides/10"))]⟩ :=
  open_idempotent exampleTable false ⟨none, none, []⟩ (r"/posts/guides/10")
    (r"/posts/guides/10") false false _ rfl (by decide)

/-- Witness for C10: after parsing the unmatched `/nope` the memo holds
`/nope`, and an `open` of `/nope` from a state carrying that memo is a
no-op. -/
theorem c10_witness :
    openRun exampleTable false ⟨some (r"/nope"), none, []⟩ (r"/nope") true =
      .ok ⟨some (r"/nope"), none, []⟩ :=
  (parse_memo exampleTable false none (r"/nope") (.ok .noMatch)
    (some (r"/nope")) (by decide)).2.2 ⟨some (r"/nope"), none, []⟩ true rfl

end RouterModel
